import Mathlib

/-! DMAR table compilation in `system/core/acpisvc/main.c`.

A shallow embedding of `append_scopes`, `create_whole_segment_iommu_desc`,
`create_non_whole_segment_iommu_desc` and `find_iommus`, followed by theorems
about them.

Conventions of the embedding:

* The DMAR table is a byte memory `Mem`.  A pointer into the table is
  represented by its byte offset from the start of the table (`dmar` is offset
  `0`); the table is assumed to lie in the address space without wrap-around,
  so `uintptr_t` comparisons agree with comparisons of offsets.
* Multi-byte fields are little-endian (the code runs on x86).
* A C loop whose termination depends on the table contents is a function
  recursing on a fuel argument; running out of fuel is `Run.timeout`.
* A failed `assert` is `Run.abort`.
* `printf` calls and `free` have no effect on the results and are left out.
-/

namespace Acpisvc

/-! ## Memory and field access -/

/-- Byte memory holding the table: `m a` is the byte at offset `a`. -/
abbrev Mem := Nat → Nat

/-- Memory whose first bytes are the given list, and zero afterwards. -/
def Mem.ofBytes (bs : List Nat) : Mem := fun a => bs.getD a 0

/-- Read of a `uint8_t` at offset `a`. -/
def rd8 (m : Mem) (a : Nat) : Nat := m a % 256

/-- Read of a little-endian `uint16_t` at offset `a`. -/
def rd16 (m : Mem) (a : Nat) : Nat := rd8 m a + 256 * rd8 m (a + 1)

/-- Read of a little-endian `uint32_t` at offset `a`. -/
def rd32 (m : Mem) (a : Nat) : Nat := rd16 m a + 65536 * rd16 m (a + 2)

/-- Read of a little-endian `uint64_t` at offset `a`. -/
def rd64 (m : Mem) (a : Nat) : Nat := rd32 m a + 4294967296 * rd32 m (a + 4)

/-- The value of `sizeof(ACPI_TABLE_DMAR)`: the 36-byte ACPI table header, then
`Width`, `Flags` and ten reserved bytes (ACPICA `actbl2.h`). -/
def sizeof_ACPI_TABLE_DMAR : Nat := 48

/-- Field `dmar->Header.Length`: a `UINT32` at offset 4 of the ACPI table
header, after the four signature bytes. -/
def Header_Length (m : Mem) : Nat := rd32 m 4

/-- Field `record_hdr->Type` of `ACPI_DMAR_HEADER`: a `UINT16` at offset 0. -/
def rec_Type (m : Mem) (rec : Nat) : Nat := rd16 m rec

/-- Field `record_hdr->Length` of `ACPI_DMAR_HEADER`: a `UINT16` at offset 2. -/
def rec_Length (m : Mem) (rec : Nat) : Nat := rd16 m (rec + 2)

/-- Field `unit->Flags` of `ACPI_DMAR_HARDWARE_UNIT`: a `UINT8` at offset 4. -/
def unit_Flags (m : Mem) (unit : Nat) : Nat := rd8 m (unit + 4)

/-- Field `unit->Segment` of `ACPI_DMAR_HARDWARE_UNIT`: a `UINT16` at offset 6. -/
def unit_Segment (m : Mem) (unit : Nat) : Nat := rd16 m (unit + 6)

/-- Field `unit->Address` of `ACPI_DMAR_HARDWARE_UNIT`: a `UINT64` at offset 8. -/
def unit_Address (m : Mem) (unit : Nat) : Nat := rd64 m (unit + 8)

/-- Field `s->EntryType` of `ACPI_DMAR_DEVICE_SCOPE`: a `UINT8` at offset 0. -/
def scope_EntryType (m : Mem) (scope : Nat) : Nat := rd8 m scope

/-- Field `s->Length` of `ACPI_DMAR_DEVICE_SCOPE`: a `UINT8` at offset 1. -/
def scope_Length (m : Mem) (scope : Nat) : Nat := rd8 m (scope + 1)

/-- Field `s->Bus` of `ACPI_DMAR_DEVICE_SCOPE`: a `UINT8` at offset 5. -/
def scope_Bus (m : Mem) (scope : Nat) : Nat := rd8 m (scope + 5)

/-- ACPICA constant `ACPI_DMAR_TYPE_HARDWARE_UNIT`. -/
def ACPI_DMAR_TYPE_HARDWARE_UNIT : Nat := 0

/-- ACPICA constant `ACPI_DMAR_SCOPE_TYPE_ENDPOINT`. -/
def ACPI_DMAR_SCOPE_TYPE_ENDPOINT : Nat := 1

/-- ACPICA constant `ACPI_DMAR_SCOPE_TYPE_BRIDGE`. -/
def ACPI_DMAR_SCOPE_TYPE_BRIDGE : Nat := 2

/-- ACPICA constant `ACPI_DMAR_INCLUDE_ALL`. -/
def ACPI_DMAR_INCLUDE_ALL : Nat := 1

/-! ## Status codes and descriptors -/

/-- The `mx_status_t` values the code under study names, and any other value
(as the boundary call may return). -/
inductive mx_status_t where
  | MX_OK
  | MX_ERR_NO_MEMORY
  | MX_ERR_NOT_FOUND
  | MX_ERR_BUFFER_TOO_SMALL
  | MX_ERR_IO_DATA_INTEGRITY
  | MX_ERR_OTHER (code : Int)
  deriving DecidableEq, Repr

open mx_status_t

/-- Modelled from the spec: the enumerators of the scope `type` field of
`mx_iommu_desc_intel_scope_t` (`magenta/syscalls/iommu.h` is not part of the
sources), numbered in the order `enum{ENDPOINT,BRIDGE}` of the layout. -/
def MX_IOMMU_INTEL_SCOPE_ENDPOINT : Nat := 0

/-- Modelled from the spec: second enumerator of the scope `type` field. -/
def MX_IOMMU_INTEL_SCOPE_BRIDGE : Nat := 1

/-- Modelled from the spec: one scope entry `mx_iommu_desc_intel_scope_t`, with
fields `{type, start_bus: u8, num_hops: u32, dev_func: [u8]}`.  The bound of
the `dev_func` array is not known; the list holds the bytes stored so far. -/
structure mx_iommu_desc_intel_scope_t where
  type : Nat
  start_bus : Nat
  num_hops : Nat
  dev_func : List Nat
  deriving DecidableEq, Repr

/-- Modelled from the spec: the descriptor `mx_iommu_desc_intel_t`, with fields
`{register_base: u64, pci_segment: u16, whole_segment: bool, num_scopes: u32,
scopes: [...]}`.  `scopes` is the whole allocated entry storage; the entries in
use are the first `num_scopes` ones. -/
structure mx_iommu_desc_intel_t where
  register_base : Nat
  pci_segment : Nat
  whole_segment : Bool
  num_scopes : Nat
  scopes : List mx_iommu_desc_intel_scope_t
  deriving DecidableEq, Repr

/-- The content of an entry slot that has been allocated and not written. -/
def uninit_scope : mx_iommu_desc_intel_scope_t :=
  { type := 0, start_bus := 0, num_hops := 0, dev_func := [] }

/-- The entries of a descriptor that are in use. -/
def scope_list (desc : mx_iommu_desc_intel_t) : List mx_iommu_desc_intel_scope_t :=
  desc.scopes.take desc.num_scopes

/-- Outcome of running a piece of the program with a bound on loop
iterations. -/
inductive Run (α : Type) where
  | timeout : Run α
  | abort : Run α
  | ret : α → Run α
  deriving DecidableEq, Repr

/-! ## `append_scopes` -/

/-- The test of the `switch` on `s->EntryType`: the two counted cases. -/
def is_counted (m : Mem) (scope : Nat) : Bool :=
  scope_EntryType m scope == ACPI_DMAR_SCOPE_TYPE_ENDPOINT ||
    scope_EntryType m scope == ACPI_DMAR_SCOPE_TYPE_BRIDGE

/-- The counting loop of `append_scopes` (lines 152-168): from `scope`, while
`scope < stop`, step by `s->Length` and count the ENDPOINT and BRIDGE entries.
Returns the final `num_scopes`, or `none` when the fuel runs out. -/
def count_loop (m : Mem) (stop : Nat) : Nat → Nat → Nat → Option Nat
  | 0, _, _ => none
  | fuel + 1, scope, num_scopes =>
    if scope < stop then
      count_loop m stop fuel (scope + scope_Length m scope)
        (if is_counted m scope then num_scopes + 1 else num_scopes)
    else
      some num_scopes

/-- The bound `(s->Length - 6) / 2` of the hop loops, computed in `int` (the
`UINT8` length is promoted; `/` truncates towards zero). -/
def hop_bound (m : Mem) (scope : Nat) : Int :=
  Int.tdiv ((scope_Length m scope : Int) - 6) 2

/-- The byte stored in `dev_func[i]` for the 16-bit hop value `v`:
`dev = v >> 8` and `func = v & 0x7` as `uint8_t`, then `(dev << 3) | func`
stored into a `uint8_t`. -/
def dev_func_byte (v : Nat) : Nat :=
  let dev := (v >>> 8) % 256
  let func := (v &&& 7) % 256
  ((dev <<< 3) ||| func) % 256

/-- The hop loop (lines 205-210): the bytes it stores in `dev_func[0..]`, one
for each `i` with `0 <= i < (s->Length - 6) / 2`. -/
def hop_bytes (m : Mem) (scope : Nat) : List Nat :=
  (List.range (hop_bound m scope).toNat).map
    (fun i => dev_func_byte (rd16 m (scope + 6 + 2 * i)))

/-- The stores of one fill iteration into `*scope_desc` (lines 192-210) for an
entry of descriptor type `ty`: `type`, `start_bus`, `num_hops` (the `int`
bound converted to the unsigned 32-bit field) and the first `dev_func` bytes. -/
def write_scope (m : Mem) (scope : Nat) (ty : Nat)
    (old : mx_iommu_desc_intel_scope_t) : mx_iommu_desc_intel_scope_t :=
  { type := ty
    start_bus := scope_Bus m scope
    num_hops := ((hop_bound m scope) % 4294967296).toNat
    dev_func := hop_bytes m scope ++ old.dev_func.drop (hop_bytes m scope).length }

/-- Update of `desc->scopes[scope_index]` by `f`. -/
def modify_scope (desc : mx_iommu_desc_intel_t) (scope_index : Nat)
    (f : mx_iommu_desc_intel_scope_t → mx_iommu_desc_intel_scope_t) : mx_iommu_desc_intel_t :=
  { desc with scopes := desc.scopes.modify f scope_index }

/-- The fill loop of `append_scopes` (lines 184-212).  `scope_index` is a
`size_t`, so its decrement and increment are taken modulo `2^64`.  In the
`default` case the body does `--scope_index; continue;`, which goes to the
loop increment `++scope_index` without reaching `scope += s->Length`.
Returns the final `scope_index` and descriptor, or `none` when the fuel runs
out. -/
def fill_loop (m : Mem) (stop max_scopes : Nat) :
    Nat → Nat → Nat → mx_iommu_desc_intel_t → Option (Nat × mx_iommu_desc_intel_t)
  | 0, _, _, _ => none
  | fuel + 1, scope, scope_index, desc =>
    if scope < stop ∧ scope_index < max_scopes then
      if scope_EntryType m scope = ACPI_DMAR_SCOPE_TYPE_ENDPOINT then
        fill_loop m stop max_scopes fuel (scope + scope_Length m scope)
          ((scope_index + 1) % 18446744073709551616)
          (modify_scope desc scope_index (write_scope m scope MX_IOMMU_INTEL_SCOPE_ENDPOINT))
      else if scope_EntryType m scope = ACPI_DMAR_SCOPE_TYPE_BRIDGE then
        fill_loop m stop max_scopes fuel (scope + scope_Length m scope)
          ((scope_index + 1) % 18446744073709551616)
          (modify_scope desc scope_index (write_scope m scope MX_IOMMU_INTEL_SCOPE_BRIDGE))
      else
        fill_loop m stop max_scopes fuel scope
          (((scope_index + 18446744073709551616 - 1) % 18446744073709551616 + 1)
            % 18446744073709551616)
          desc
    else
      some (scope_index, desc)

/-- What a call of `append_scopes` leaves behind: the returned status, the
descriptor (when `desc` is not `NULL`) and the value stored through
`num_scopes_found` (when that pointer is not `NULL`). -/
structure append_result where
  status : mx_status_t
  desc : Option mx_iommu_desc_intel_t
  num_scopes_found : Option Nat
  deriving DecidableEq, Repr

/-- The function `append_scopes(unit, desc, max_scopes, num_scopes_found)`.
`want_found` says whether the pointer `num_scopes_found` is non-`NULL`. -/
def append_scopes (m : Mem) (fuel : Nat) (unit : Nat) (desc : Option mx_iommu_desc_intel_t)
    (max_scopes : Nat) (want_found : Bool) : Run append_result :=
  let addr := unit
  match count_loop m (addr + rec_Length m unit) fuel (addr + 16) 0 with
  | none => .timeout
  | some num_scopes =>
    match desc with
    | none =>
      .ret { status := MX_OK, desc := none,
             num_scopes_found := if want_found then some num_scopes else none }
    | some d =>
      if unit_Segment m unit ≠ d.pci_segment then .abort
      else if d.num_scopes + num_scopes > max_scopes then
        .ret { status := MX_ERR_BUFFER_TOO_SMALL, desc := some d,
               num_scopes_found := if want_found then some num_scopes else none }
      else
        match fill_loop m (addr + rec_Length m unit) max_scopes fuel (addr + 16) d.num_scopes d with
        | none => .timeout
        | some (scope_index, d1) =>
          .ret { status := MX_OK,
                 desc := some { d1 with num_scopes := scope_index % 4294967296 },
                 num_scopes_found := if want_found then some num_scopes else none }

/-! ## The descriptor builders -/

/-- An observable step of `find_iommus`: entering a builder for the hardware
unit at `rec`, or calling `mx_iommu_create` on a descriptor. -/
inductive Event where
  | builder_call (whole_segment : Bool) (rec : Nat)
  | iommu_create (desc : mx_iommu_desc_intel_t) (desc_len : Nat)
  deriving DecidableEq, Repr

/-- The environment of the program: whether `malloc(desc_len)` succeeds, the
status returned by the boundary call `mx_iommu_create` given the events so far
and its arguments, and the two `sizeof` values used to size a descriptor
(declared in `magenta/syscalls/iommu.h`). -/
structure Env where
  malloc_ok : Nat → Bool
  mx_iommu_create : List Event → mx_iommu_desc_intel_t → Nat → mx_status_t
  sizeof_desc : Nat
  sizeof_scope : Nat

/-- What a builder hands back: a failure status (`desc_out` and `desc_len_out`
are not written), or `MX_OK` with `*desc_out` and `*desc_len_out`. -/
inductive builder_result where
  | error (status : mx_status_t)
  | ok (desc : mx_iommu_desc_intel_t) (desc_len : Nat)
  deriving DecidableEq, Repr

/-- The function `create_non_whole_segment_iommu_desc(unit, desc_out, desc_len_out)`. -/
def create_non_whole_segment_iommu_desc (env : Env) (m : Mem) (fuel : Nat) (unit : Nat) :
    Run builder_result :=
  if unit_Flags m unit &&& ACPI_DMAR_INCLUDE_ALL ≠ 0 then .abort
  else
    match append_scopes m fuel unit none 0 true with
    | .timeout => .timeout
    | .abort => .abort
    | .ret r =>
      if r.status ≠ MX_OK then .ret (.error r.status)
      else
        let num_scopes := r.num_scopes_found.getD 0
        let desc_len := env.sizeof_desc + env.sizeof_scope * num_scopes
        if env.malloc_ok desc_len = false then .ret (.error MX_ERR_NO_MEMORY)
        else
          let desc : mx_iommu_desc_intel_t :=
            { register_base := unit_Address m unit
              pci_segment := unit_Segment m unit
              whole_segment := false
              num_scopes := 0
              scopes := List.replicate num_scopes uninit_scope }
          match append_scopes m fuel unit (some desc) num_scopes false with
          | .timeout => .timeout
          | .abort => .abort
          | .ret r2 =>
            if r2.status ≠ MX_OK then .ret (.error r2.status)
            else .ret (.ok (r2.desc.getD desc) desc_len)

/-- Exit of a record loop: an early `return status`, or the loop condition
turning false with the loop state `a`. -/
inductive LoopExit (α : Type) where
  | returned (status : mx_status_t) : LoopExit α
  | finished (a : α) : LoopExit α
  deriving DecidableEq, Repr

/-- The first record loop of `create_whole_segment_iommu_desc` (lines 235-251):
sums the scope counts of the hardware units before `records_end` whose segment
is that of `unit`.  The loop state is `num_scopes`. -/
def whole_count_loop (m : Mem) (fuel : Nat) (unit records_end : Nat) :
    Nat → Nat → Nat → Run (LoopExit Nat)
  | 0, _, _ => .timeout
  | k + 1, addr, num_scopes =>
    if addr < records_end then
      if rec_Type m addr = ACPI_DMAR_TYPE_HARDWARE_UNIT then
        if unit_Segment m addr ≠ unit_Segment m unit then
          whole_count_loop m fuel unit records_end k (addr + rec_Length m addr) num_scopes
        else
          match append_scopes m fuel addr none 0 true with
          | .timeout => .timeout
          | .abort => .abort
          | .ret r =>
            if r.status ≠ MX_OK then .ret (.returned r.status)
            else
              whole_count_loop m fuel unit records_end k (addr + rec_Length m addr)
                (num_scopes + r.num_scopes_found.getD 0)
      else
        whole_count_loop m fuel unit records_end k (addr + rec_Length m addr) num_scopes
    else
      .ret (.finished num_scopes)

/-- The second record loop of `create_whole_segment_iommu_desc` (lines
264-280).  For each hardware unit `rec` before `records_end` on the segment of
`unit` it calls `append_scopes(unit, desc, num_scopes, NULL)`: the first
argument is `unit`, as in the source.  The loop state is the descriptor. -/
def whole_fill_loop (m : Mem) (fuel : Nat) (unit records_end num_scopes : Nat) :
    Nat → Nat → mx_iommu_desc_intel_t → Run (LoopExit mx_iommu_desc_intel_t)
  | 0, _, _ => .timeout
  | k + 1, addr, desc =>
    if addr < records_end then
      if rec_Type m addr = ACPI_DMAR_TYPE_HARDWARE_UNIT then
        if unit_Segment m addr ≠ unit_Segment m unit then
          whole_fill_loop m fuel unit records_end num_scopes k (addr + rec_Length m addr) desc
        else
          match append_scopes m fuel unit (some desc) num_scopes false with
          | .timeout => .timeout
          | .abort => .abort
          | .ret r =>
            if r.status ≠ MX_OK then .ret (.returned r.status)
            else
              whole_fill_loop m fuel unit records_end num_scopes k (addr + rec_Length m addr)
                (r.desc.getD desc)
      else
        whole_fill_loop m fuel unit records_end num_scopes k (addr + rec_Length m addr) desc
    else
      .ret (.finished desc)

/-- The function `create_whole_segment_iommu_desc(table, unit, desc_out, desc_len_out)`. -/
def create_whole_segment_iommu_desc (env : Env) (m : Mem) (fuel : Nat) (unit : Nat) :
    Run builder_result :=
  if unit_Flags m unit &&& ACPI_DMAR_INCLUDE_ALL = 0 then .abort
  else
    let records_start := sizeof_ACPI_TABLE_DMAR
    let records_end := unit
    match whole_count_loop m fuel unit records_end fuel records_start 0 with
    | .timeout => .timeout
    | .abort => .abort
    | .ret (.returned status) => .ret (.error status)
    | .ret (.finished num_scopes) =>
      let desc_len := env.sizeof_desc + env.sizeof_scope * num_scopes
      if env.malloc_ok desc_len = false then .ret (.error MX_ERR_NO_MEMORY)
      else
        let desc : mx_iommu_desc_intel_t :=
          { register_base := unit_Address m unit
            pci_segment := unit_Segment m unit
            whole_segment := true
            num_scopes := 0
            scopes := List.replicate num_scopes uninit_scope }
        match whole_fill_loop m fuel unit records_end num_scopes fuel records_start desc with
        | .timeout => .timeout
        | .abort => .abort
        | .ret (.returned status) => .ret (.error status)
        | .ret (.finished desc1) => .ret (.ok desc1 desc_len)

/-! ## `find_iommus` -/

/-- The local `whole_segment` of `find_iommus`: the value of
`rec->Flags & ACPI_DMAR_INCLUDE_ALL` converted to `bool`. -/
def include_all (m : Mem) (rec : Nat) : Bool :=
  decide (unit_Flags m rec &&& ACPI_DMAR_INCLUDE_ALL ≠ 0)

/-- The builder call of `find_iommus` for the hardware unit at `rec` (lines
353-357): the whole-segment builder when `whole_segment` is true, the other
one otherwise. -/
def build_desc (env : Env) (m : Mem) (fuel : Nat) (rec : Nat) : Run builder_result :=
  if include_all m rec then
    create_whole_segment_iommu_desc env m fuel rec
  else
    create_non_whole_segment_iommu_desc env m fuel rec

/-- The record loop of `find_iommus` (lines 340-378).  The loop state is
`addr`; next to the exit the function gives the events so far: one
`builder_call` each time a builder is entered, one `iommu_create` each time
`mx_iommu_create` is called. -/
def find_loop (env : Env) (m : Mem) (fuel : Nat) (records_end : Nat) :
    Nat → Nat → List Event → Run (LoopExit Nat × List Event)
  | 0, _, _ => .timeout
  | k + 1, addr, tr =>
    if addr < records_end then
      if rec_Type m addr = ACPI_DMAR_TYPE_HARDWARE_UNIT then
        let tr1 := tr ++ [Event.builder_call (include_all m addr) addr]
        match build_desc env m fuel addr with
        | .timeout => .timeout
        | .abort => .abort
        | .ret (.error status) => .ret (.returned status, tr1)
        | .ret (.ok desc desc_len) =>
          let tr2 := tr1 ++ [Event.iommu_create desc desc_len]
          if env.mx_iommu_create tr1 desc desc_len ≠ MX_OK then
            .ret (.returned (env.mx_iommu_create tr1 desc desc_len), tr2)
          else
            find_loop env m fuel records_end k (addr + rec_Length m addr) tr2
      else
        find_loop env m fuel records_end k (addr + rec_Length m addr) tr
    else
      .ret (.finished addr, tr)

/-- The function `find_iommus()`.  `table` is what `AcpiGetTable` finds: the
DMAR table, or nothing.  Returns the status and the events that took place. -/
def find_iommus (env : Env) (table : Option Mem) (fuel : Nat) :
    Run (mx_status_t × List Event) :=
  match table with
  | none => .ret (MX_ERR_NOT_FOUND, [])
  | some m =>
    let records_start := sizeof_ACPI_TABLE_DMAR
    let records_end := Header_Length m
    if records_start ≥ records_end then .ret (MX_ERR_IO_DATA_INTEGRITY, [])
    else if Header_Length m > 4096 then .ret (MX_ERR_IO_DATA_INTEGRITY, [])
    else
      match find_loop env m fuel records_end fuel records_start [] with
      | .timeout => .timeout
      | .abort => .abort
      | .ret (.returned status, tr) => .ret (status, tr)
      | .ret (.finished addr, tr) =>
        if addr ≠ records_end then .ret (MX_ERR_IO_DATA_INTEGRITY, tr)
        else .ret (MX_OK, tr)

/-! ## Vocabulary of the statements -/

/-- Layout of consecutive records: `Chain len s offs f` says that the records
at the offsets `offs` follow one another from `s`, each as long as `len` says,
and that the last one ends at `f`. -/
def Chain (len : Nat → Nat) : Nat → List Nat → Nat → Prop
  | s, [], f => s = f
  | s, o :: os, f => o = s ∧ Chain len (s + len s) os f

/-- Run of a loop `for (a = s; a < stop; a += len a)`: `Visits len stop s offs f`
says that the loop body runs at the offsets `offs`, in this order, and that the
loop is left with `a = f`. -/
def Visits (len : Nat → Nat) (stop : Nat) : Nat → List Nat → Nat → Prop
  | s, [], f => s = f ∧ stop ≤ s
  | s, o :: os, f => o = s ∧ s < stop ∧ Visits len stop (s + len s) os f

/-- Number of ENDPOINT and BRIDGE sub-records among those at `offs`. -/
def counted (m : Mem) (offs : List Nat) : Nat := (offs.filter (is_counted m)).length

/-- Whether the record at `rec` is a hardware unit. -/
def is_hardware_unit (m : Mem) (rec : Nat) : Bool :=
  rec_Type m rec == ACPI_DMAR_TYPE_HARDWARE_UNIT

/-- The `mx_iommu_create` calls among the events: descriptor and length. -/
def calls_of : List Event → List (mx_iommu_desc_intel_t × Nat)
  | [] => []
  | Event.builder_call _ _ :: es => calls_of es
  | Event.iommu_create d len :: es => (d, len) :: calls_of es

/-- The builder calls among the events: which builder, and on which record. -/
def builds_of : List Event → List (Bool × Nat)
  | [] => []
  | Event.builder_call w rec :: es => (w, rec) :: builds_of es
  | Event.iommu_create _ _ :: es => builds_of es

/-- The descriptor and length `c` are what the builder selected by the
INCLUDE_ALL flag of the unit at `rec` returns with `MX_OK`. -/
def BuiltFor (env : Env) (m : Mem) (fuel : Nat) (rec : Nat)
    (c : mx_iommu_desc_intel_t × Nat) : Prop :=
  (unit_Flags m rec &&& ACPI_DMAR_INCLUDE_ALL ≠ 0 →
    create_whole_segment_iommu_desc env m fuel rec = .ret (.ok c.1 c.2)) ∧
  (unit_Flags m rec &&& ACPI_DMAR_INCLUDE_ALL = 0 →
    create_non_whole_segment_iommu_desc env m fuel rec = .ret (.ok c.1 c.2))

instance Chain.decidable (len : Nat → Nat) : ∀ (s : Nat) (offs : List Nat) (f : Nat),
    Decidable (Chain len s offs f)
  | s, [], f => inferInstanceAs (Decidable (s = f))
  | s, _ :: os, f => @instDecidableAnd _ _ _ (Chain.decidable len (s + len s) os f)

instance Visits.decidable (len : Nat → Nat) (stop : Nat) : ∀ (s : Nat) (offs : List Nat) (f : Nat),
    Decidable (Visits len stop s offs f)
  | s, [], f => inferInstanceAs (Decidable (s = f ∧ stop ≤ s))
  | s, _ :: os, f =>
    @instDecidableAnd _ _ _ (@instDecidableAnd _ _ _ (Visits.decidable len stop (s + len s) os f))

instance BuiltFor.decidable (env : Env) (m : Mem) (fuel rec : Nat)
    (c : mx_iommu_desc_intel_t × Nat) : Decidable (BuiltFor env m fuel rec c) :=
  inferInstanceAs (Decidable (_ ∧ _))

/-! ## Concrete tables -/

/-- Bytes of an `ACPI_TABLE_DMAR` header declaring the total length `len`. -/
def table_header (len : Nat) : List Nat :=
  [68, 77, 65, 82, len % 256, len / 256 % 256, 0, 0] ++ List.replicate 40 0

/-- Bytes of the fixed part of an `ACPI_DMAR_HARDWARE_UNIT` record of declared
length `len`, with the given flags and segment, and register base
`0xfed90000`. -/
def hardware_unit (len flags seg : Nat) : List Nat :=
  [0, 0, len % 256, len / 256 % 256, flags, 0, seg % 256, seg / 256 % 256,
   0, 0, 217, 254, 0, 0, 0, 0]

/-- Bytes of an `ACPI_DMAR_DEVICE_SCOPE` sub-record with the given entry type,
declared length, bus and path bytes. -/
def device_scope (ty len bus : Nat) (path : List Nat) : List Nat :=
  [ty, len, 0, 0, 0, bus] ++ path

/-- A table with one hardware unit on segment 0, INCLUDE_ALL clear, holding
one ENDPOINT scope on bus 1 whose single hop has the 16-bit value `0x0200`
(device 2, function 0). -/
def table_endpoint : Mem :=
  Mem.ofBytes (table_header 72 ++ hardware_unit 24 0 0 ++ device_scope 1 8 1 [0, 2])

/-- A table with one hardware unit whose first sub-record has entry type 3
(neither ENDPOINT nor BRIDGE) and whose second one is an ENDPOINT. -/
def table_mixed : Mem :=
  Mem.ofBytes (table_header 80 ++ hardware_unit 32 0 0 ++
    device_scope 3 8 0 [0, 5] ++ device_scope 1 8 1 [0, 2])

/-- A table with a hardware unit on segment 0 holding an ENDPOINT on bus 1,
followed by an INCLUDE_ALL hardware unit on segment 0 without sub-records. -/
def table_whole : Mem :=
  Mem.ofBytes (table_header 88 ++ hardware_unit 24 0 0 ++ device_scope 1 8 1 [0, 2] ++
    hardware_unit 16 1 0)

/-- The same table, with the INCLUDE_ALL unit holding an ENDPOINT on bus 9. -/
def table_whole_own : Mem :=
  Mem.ofBytes (table_header 96 ++ hardware_unit 24 0 0 ++ device_scope 1 8 1 [0, 2] ++
    hardware_unit 24 1 0 ++ device_scope 1 8 9 [0, 3])

/-- A table header declaring a length of 5000 bytes. -/
def table_long : Mem := Mem.ofBytes (table_header 5000)

/-- A table with one hardware unit of declared length 24 whose only
sub-record declares length 10: it starts at offset 64 and runs past the end
of the unit (and of the table) at offset 72. -/
def table_overrun : Mem :=
  Mem.ofBytes (table_header 72 ++ hardware_unit 24 0 0 ++ device_scope 1 10 1 [0, 2])

/-- An environment in which every allocation and every boundary call
succeeds. -/
def env_ok : Env :=
  { malloc_ok := fun _ => true
    mx_iommu_create := fun _ _ _ => MX_OK
    sizeof_desc := 16
    sizeof_scope := 12 }

/-- An environment in which the boundary call rejects whole-segment
descriptors. -/
def env_reject_whole : Env :=
  { malloc_ok := fun _ => true
    mx_iommu_create := fun _ d _ => if d.whole_segment then MX_ERR_OTHER (-1) else MX_OK
    sizeof_desc := 16
    sizeof_scope := 12 }

/-- The scope entry compiled from an ENDPOINT sub-record on bus `bus` with
one hop stored as `b`. -/
def endpoint_entry (bus b : Nat) : mx_iommu_desc_intel_scope_t :=
  { type := MX_IOMMU_INTEL_SCOPE_ENDPOINT, start_bus := bus, num_hops := 1, dev_func := [b] }

/-- A descriptor for register base `0xfed90000` on segment 0 whose storage
holds exactly the given entries, all in use. -/
def desc_of (whole : Bool) (entries : List mx_iommu_desc_intel_scope_t) : mx_iommu_desc_intel_t :=
  { register_base := 4275634176, pci_segment := 0, whole_segment := whole,
    num_scopes := entries.length, scopes := entries }

/-- A descriptor on segment 0 with room for one entry and none in use. -/
def empty_desc : mx_iommu_desc_intel_t :=
  { register_base := 4275634176, pci_segment := 0, whole_segment := false,
    num_scopes := 0, scopes := [uninit_scope] }

/-- A whole-segment descriptor on segment 0 with room for one entry and none
in use. -/
def whole_empty_desc : mx_iommu_desc_intel_t :=
  { register_base := 4275634176, pci_segment := 0, whole_segment := true,
    num_scopes := 0, scopes := [uninit_scope] }

/-- A table whose only record has type 1 (not a hardware unit) and length 8. -/
def table_no_units : Mem :=
  Mem.ofBytes (table_header 56 ++ [1, 0, 8, 0, 0, 0, 0, 0])

/-- A table with one hardware unit, INCLUDE_ALL clear, whose only sub-record has
entry type 3. -/
def table_other_only : Mem :=
  Mem.ofBytes (table_header 72 ++ hardware_unit 24 0 0 ++ device_scope 3 8 0 [0, 5])

/-- A table with a hardware unit on segment 0 holding one ENDPOINT, followed by
an INCLUDE_ALL hardware unit on segment 0 holding two ENDPOINT sub-records. -/
def table_whole_two : Mem :=
  Mem.ofBytes (table_header 104 ++ hardware_unit 24 0 0 ++ device_scope 1 8 1 [0, 2] ++
    hardware_unit 32 1 0 ++ device_scope 1 8 9 [0, 3] ++ device_scope 1 8 9 [0, 4])

/-- Whether the record at `rec` is a hardware unit on the segment of the unit
at `unit`: the records the passes of `create_whole_segment_iommu_desc` act on. -/
def on_segment (m : Mem) (unit rec : Nat) : Bool :=
  is_hardware_unit m rec && (unit_Segment m rec == unit_Segment m unit)

/-- The positions a loop `for (a = s; a < stop; a += len a)` can stand at:
`Reach len stop s a` holds for `s` and, after each run of the body at a
position below `stop`, for the next position. -/
inductive Reach (len : Nat → Nat) (stop s : Nat) : Nat → Prop where
  | start : Reach len stop s s
  | step {a : Nat} : Reach len stop s a → a < stop → Reach len stop s (a + len a)

/-- A table with one hardware unit holding one ENDPOINT on bus 1 whose single
hop has the 16-bit value `0x2000`: top byte 32, low bits 0. -/
def table_dev32 : Mem :=
  Mem.ofBytes (table_header 72 ++ hardware_unit 24 0 0 ++ device_scope 1 8 1 [0, 32])

/-- The descriptor type the fill loop stores for a counted sub-record:
ENDPOINT for an ENDPOINT, BRIDGE for a BRIDGE. -/
def compiled_type (m : Mem) (scope : Nat) : Nat :=
  if scope_EntryType m scope = ACPI_DMAR_SCOPE_TYPE_ENDPOINT then MX_IOMMU_INTEL_SCOPE_ENDPOINT
  else MX_IOMMU_INTEL_SCOPE_BRIDGE

/-- The entry the fill loop compiles from the ENDPOINT or BRIDGE sub-record at
`scope` into a slot that held `old`. -/
def compile_scope (m : Mem) (scope : Nat)
    (old : mx_iommu_desc_intel_scope_t) : mx_iommu_desc_intel_scope_t :=
  write_scope m scope (compiled_type m scope) old

/-- The descriptor `d` with its entries from index `idx` on replaced by the
entries compiled from the ENDPOINT and BRIDGE sub-records among `offs`, in
order; the entries before `idx` and after the new ones are those of `d`. -/
def with_compiled (m : Mem) (d : mx_iommu_desc_intel_t) (idx : Nat)
    (offs : List Nat) : mx_iommu_desc_intel_t :=
  { d with
    scopes := d.scopes.take idx ++
        List.zipWith (compile_scope m) (offs.filter (is_counted m)) (d.scopes.drop idx) ++
        d.scopes.drop (idx + counted m offs) }

/-- The descriptor `d` after the ENDPOINT and BRIDGE sub-records among `offs`
have been appended to its entries in use. -/
def appended (m : Mem) (d : mx_iommu_desc_intel_t) (offs : List Nat) : mx_iommu_desc_intel_t :=
  { with_compiled m d d.num_scopes offs with num_scopes := d.num_scopes + counted m offs }

/-! ## Memory reads -/

/-- What a byte read by the program belongs to: the ACPI table header, the
four-byte header of a DMAR record, the fixed fields of a hardware unit (its
`Header.Length`, `Flags`, `Segment`, `Address`), or a device-scope sub-record
(its fixed fields and its hop values). -/
inductive ReadKind where
  | table_header
  | record_header
  | unit_field
  | scope_field
  deriving DecidableEq, Repr

/-- A read of the byte at `offset`. -/
structure Read where
  kind : ReadKind
  offset : Nat
  deriving DecidableEq, Repr

/-- The reads of the `n` bytes of a field at offset `a`. -/
def field_reads (kind : ReadKind) (a n : Nat) : List Read :=
  (List.range n).map (fun i => { kind := kind, offset := a + i })

/-- The reads of a hop loop (lines 155-158 and 205-210): the two bytes at
`scope + 6 + 2 * i` for each `i` below the bound. -/
def hop_reads (m : Mem) (scope : Nat) : List Read :=
  (List.range (hop_bound m scope).toNat).map
      (fun i => { kind := ReadKind.scope_field, offset := scope + 6 + 2 * i }) ++
    (List.range (hop_bound m scope).toNat).map
      (fun i => { kind := ReadKind.scope_field, offset := scope + 6 + 2 * i + 1 })

/-- Lookup of a byte in the `Header.Length` bytes of the table: nothing at an
offset that is not below `Header.Length`. -/
def table_lookup (m : Mem) (a : Nat) : Option Nat :=
  if a < Header_Length m then some (rd8 m a) else none

/-- The reads of the counting loop of `append_scopes`: in each iteration
`s->EntryType`, `s->Bus`, `s->Length` and the hop values printed. -/
def count_loop_reads (m : Mem) (stop : Nat) : Nat → Nat → List Read
  | 0, _ => []
  | fuel + 1, scope =>
    if scope < stop then
      field_reads ReadKind.scope_field scope 1 ++
        field_reads ReadKind.scope_field (scope + 5) 1 ++
        field_reads ReadKind.scope_field (scope + 1) 1 ++
        hop_reads m scope ++
        count_loop_reads m stop fuel (scope + scope_Length m scope)
    else
      []

/-- The reads of the fill loop of `append_scopes`: `s->EntryType` in each
iteration and, for an ENDPOINT or BRIDGE, `s->Bus`, `s->Length` and the hop
values. -/
def fill_loop_reads (m : Mem) (stop max_scopes : Nat) : Nat → Nat → Nat → List Read
  | 0, _, _ => []
  | fuel + 1, scope, scope_index =>
    if scope < stop ∧ scope_index < max_scopes then
      field_reads ReadKind.scope_field scope 1 ++
        (if is_counted m scope then
          field_reads ReadKind.scope_field (scope + 5) 1 ++
            field_reads ReadKind.scope_field (scope + 1) 1 ++
            hop_reads m scope ++
            fill_loop_reads m stop max_scopes fuel (scope + scope_Length m scope)
              ((scope_index + 1) % 18446744073709551616)
        else
          fill_loop_reads m stop max_scopes fuel scope
            (((scope_index + 18446744073709551616 - 1) % 18446744073709551616 + 1)
              % 18446744073709551616))
    else
      []

/-- The reads of a call of `append_scopes`: `unit->Header.Length` for the loop
bounds, the counting loop, `unit->Segment` for the `assert` when there is a
descriptor, and the fill loop when it is reached. -/
def append_scopes_reads (m : Mem) (fuel : Nat) (unit : Nat)
    (desc : Option mx_iommu_desc_intel_t) (max_scopes : Nat) : List Read :=
  field_reads ReadKind.unit_field (unit + 2) 2 ++
    count_loop_reads m (unit + rec_Length m unit) fuel (unit + 16) ++
    (match count_loop m (unit + rec_Length m unit) fuel (unit + 16) 0, desc with
    | some num_scopes, some d =>
      field_reads ReadKind.unit_field (unit + 6) 2 ++
        (if unit_Segment m unit ≠ d.pci_segment then []
        else if d.num_scopes + num_scopes > max_scopes then []
        else fill_loop_reads m (unit + rec_Length m unit) max_scopes fuel (unit + 16) d.num_scopes)
    | _, _ => [])

/-- The reads of `create_non_whole_segment_iommu_desc`: `unit->Flags` for the
`assert`, the counting call, then `unit->Address` and `unit->Segment` for the
new descriptor and the fill call. -/
def create_non_whole_segment_reads (env : Env) (m : Mem) (fuel : Nat) (unit : Nat) : List Read :=
  field_reads ReadKind.unit_field (unit + 4) 1 ++
    (if unit_Flags m unit &&& ACPI_DMAR_INCLUDE_ALL ≠ 0 then []
    else
      append_scopes_reads m fuel unit none 0 ++
        (match append_scopes m fuel unit none 0 true with
        | .ret r =>
          if r.status ≠ MX_OK then []
          else if env.malloc_ok
              (env.sizeof_desc + env.sizeof_scope * r.num_scopes_found.getD 0) = false then []
          else
            field_reads ReadKind.unit_field (unit + 8) 8 ++
              field_reads ReadKind.unit_field (unit + 6) 2 ++
              append_scopes_reads m fuel unit
                (some { register_base := unit_Address m unit
                        pci_segment := unit_Segment m unit
                        whole_segment := false
                        num_scopes := 0
                        scopes := List.replicate (r.num_scopes_found.getD 0) uninit_scope })
                (r.num_scopes_found.getD 0)
        | _ => []))

/-- The reads of the first record loop of `create_whole_segment_iommu_desc`:
in each iteration `record_hdr->Type`, for a hardware unit `rec->Segment` and
`unit->Segment` and, on the segment of `unit`, the counting call on `rec`, then
`record_hdr->Length`. -/
def whole_count_loop_reads (m : Mem) (fuel : Nat) (unit records_end : Nat) :
    Nat → Nat → List Read
  | 0, _ => []
  | k + 1, addr =>
    if addr < records_end then
      field_reads ReadKind.record_header addr 2 ++
        (if rec_Type m addr = ACPI_DMAR_TYPE_HARDWARE_UNIT then
          field_reads ReadKind.unit_field (addr + 6) 2 ++
            field_reads ReadKind.unit_field (unit + 6) 2 ++
            (if unit_Segment m addr ≠ unit_Segment m unit then
              field_reads ReadKind.record_header (addr + 2) 2 ++
                whole_count_loop_reads m fuel unit records_end k (addr + rec_Length m addr)
            else
              append_scopes_reads m fuel addr none 0 ++
                (match append_scopes m fuel addr none 0 true with
                | .ret r =>
                  if r.status ≠ MX_OK then []
                  else
                    field_reads ReadKind.record_header (addr + 2) 2 ++
                      whole_count_loop_reads m fuel unit records_end k
                        (addr + rec_Length m addr)
                | _ => []))
        else
          field_reads ReadKind.record_header (addr + 2) 2 ++
            whole_count_loop_reads m fuel unit records_end k (addr + rec_Length m addr))
    else
      []

/-- The reads of the second record loop of `create_whole_segment_iommu_desc`:
as in the first loop, with the fill call on `unit` in place of the counting
call on `rec`. -/
def whole_fill_loop_reads (m : Mem) (fuel : Nat) (unit records_end num_scopes : Nat) :
    Nat → Nat → mx_iommu_desc_intel_t → List Read
  | 0, _, _ => []
  | k + 1, addr, desc =>
    if addr < records_end then
      field_reads ReadKind.record_header addr 2 ++
        (if rec_Type m addr = ACPI_DMAR_TYPE_HARDWARE_UNIT then
          field_reads ReadKind.unit_field (addr + 6) 2 ++
            field_reads ReadKind.unit_field (unit + 6) 2 ++
            (if unit_Segment m addr ≠ unit_Segment m unit then
              field_reads ReadKind.record_header (addr + 2) 2 ++
                whole_fill_loop_reads m fuel unit records_end num_scopes k
                  (addr + rec_Length m addr) desc
            else
              append_scopes_reads m fuel unit (some desc) num_scopes ++
                (match append_scopes m fuel unit (some desc) num_scopes false with
                | .ret r =>
                  if r.status ≠ MX_OK then []
                  else
                    field_reads ReadKind.record_header (addr + 2) 2 ++
                      whole_fill_loop_reads m fuel unit records_end num_scopes k
                        (addr + rec_Length m addr) (r.desc.getD desc)
                | _ => []))
        else
          field_reads ReadKind.record_header (addr + 2) 2 ++
            whole_fill_loop_reads m fuel unit records_end num_scopes k
              (addr + rec_Length m addr) desc)
    else
      []

/-- The reads of `create_whole_segment_iommu_desc`: `unit->Flags` for the
`assert`, the first loop, then `unit->Address` and `unit->Segment` for the new
descriptor and the second loop. -/
def create_whole_segment_reads (env : Env) (m : Mem) (fuel : Nat) (unit : Nat) : List Read :=
  field_reads ReadKind.unit_field (unit + 4) 1 ++
    (if unit_Flags m unit &&& ACPI_DMAR_INCLUDE_ALL = 0 then []
    else
      whole_count_loop_reads m fuel unit unit fuel sizeof_ACPI_TABLE_DMAR ++
        (match whole_count_loop m fuel unit unit fuel sizeof_ACPI_TABLE_DMAR 0 with
        | .ret (.finished num_scopes) =>
          if env.malloc_ok (env.sizeof_desc + env.sizeof_scope * num_scopes) = false then []
          else
            field_reads ReadKind.unit_field (unit + 8) 8 ++
              field_reads ReadKind.unit_field (unit + 6) 2 ++
              whole_fill_loop_reads m fuel unit unit num_scopes fuel sizeof_ACPI_TABLE_DMAR
                { register_base := unit_Address m unit
                  pci_segment := unit_Segment m unit
                  whole_segment := true
                  num_scopes := 0
                  scopes := List.replicate num_scopes uninit_scope }
        | _ => []))

/-- The reads of the record loop of `find_iommus`: in each iteration
`record_hdr->Type`; for a hardware unit `rec->Segment`, `rec->Address` and
`rec->Flags` and the reads of the builder; then `record_hdr->Length` when the
loop goes on. -/
def find_loop_reads (env : Env) (m : Mem) (fuel : Nat) (records_end : Nat) :
    Nat → Nat → List Event → List Read
  | 0, _, _ => []
  | k + 1, addr, tr =>
    if addr < records_end then
      field_reads ReadKind.record_header addr 2 ++
        (if rec_Type m addr = ACPI_DMAR_TYPE_HARDWARE_UNIT then
          field_reads ReadKind.unit_field (addr + 6) 2 ++
            field_reads ReadKind.unit_field (addr + 8) 8 ++
            field_reads ReadKind.unit_field (addr + 4) 1 ++
            (if include_all m addr then create_whole_segment_reads env m fuel addr
            else create_non_whole_segment_reads env m fuel addr) ++
            (match build_desc env m fuel addr with
            | .ret (.ok desc desc_len) =>
              if env.mx_iommu_create (tr ++ [Event.builder_call (include_all m addr) addr])
                  desc desc_len ≠ MX_OK then []
              else
                field_reads ReadKind.record_header (addr + 2) 2 ++
                  find_loop_reads env m fuel records_end k (addr + rec_Length m addr)
                    (tr ++ [Event.builder_call (include_all m addr) addr,
                      Event.iommu_create desc desc_len])
            | _ => [])
        else
          field_reads ReadKind.record_header (addr + 2) 2 ++
            find_loop_reads env m fuel records_end k (addr + rec_Length m addr) tr)
    else
      []

/-- The reads of `find_iommus` on a table that is found: `dmar->Header.Length`
and, when the table-level checks pass, the reads of the record loop. -/
def find_iommus_reads (env : Env) (m : Mem) (fuel : Nat) : List Read :=
  field_reads ReadKind.table_header 4 4 ++
    (if sizeof_ACPI_TABLE_DMAR ≥ Header_Length m then []
    else if Header_Length m > 4096 then []
    else find_loop_reads env m fuel (Header_Length m) fuel sizeof_ACPI_TABLE_DMAR [])

/-- A table declaring 50 bytes, of which the last two are the `Type` field of a
record of type 1; its `Length` field lies after the declared end. -/
def table_cut : Mem := Mem.ofBytes (table_header 50 ++ [1, 0])

/-- The bound a read obeys relative to `B`: a byte of the table header lies
below 8, a byte of a record header below `B + 3`, a byte of a fixed hardware
unit field below `B + 15`; nothing is said of a sub-record byte. -/
def Read.bounded (B : Nat) (r : Read) : Prop :=
  (r.kind = ReadKind.table_header → r.offset < 8) ∧
  (r.kind = ReadKind.record_header → r.offset < B + 3) ∧
  (r.kind = ReadKind.unit_field → r.offset < B + 15)

/-- All the reads of a list obey the bound relative to `B`. -/
def AllBounded (B : Nat) (l : List Read) : Prop := ∀ r ∈ l, Read.bounded B r

/-- A table with one hardware unit of declared length 20 whose only sub-record
is an ENDPOINT of declared length 4. -/
def table_short_scope : Mem :=
  Mem.ofBytes (table_header 68 ++ hardware_unit 20 0 0 ++ [1, 4, 0, 0])

/-- The fill loop is not blocked on the sub-records at `offs`, entered with
`k` entries in use: every sub-record that is neither ENDPOINT nor BRIDGE is
only met once the descriptor is full, that is when `k` plus the number of
ENDPOINT and BRIDGE sub-records before it has reached `max_scopes`.  A unit
with only ENDPOINT and BRIDGE sub-records meets this for every `k`. -/
def fill_unblocked (m : Mem) (offs : List Nat) (k max_scopes : Nat) : Prop :=
  ∀ pre o post, offs = pre ++ o :: post → is_counted m o = false →
    max_scopes ≤ k + counted m pre

/-- A descriptor on segment 0 with two slots, the first of which is in use and
holds an ENDPOINT entry on bus 7. -/
def desc_one : mx_iommu_desc_intel_t :=
  { register_base := 4275634176, pci_segment := 0, whole_segment := false,
    num_scopes := 1, scopes := [endpoint_entry 7 8, uninit_scope] }

/-! ## Auxiliary lemmas -/

/-- A chain of records never ends before it starts. -/
theorem chain_le (len : Nat → Nat) : ∀ (offs : List Nat) (s f : Nat), Chain len s offs f → s ≤ f
  | [], s, f, h => by simp [Chain] at h; omega
  | o :: os, s, f, h => by
    obtain ⟨_, h2⟩ := h
    have := chain_le len os _ _ h2
    omega

/-- Records laid out back to back with nonzero lengths, ending exactly at `f`, are
what a loop bounded by `f` visits, and it stops exactly at `f`. -/
theorem chain_visits (len : Nat → Nat) : ∀ (offs : List Nat) (s f : Nat),
    Chain len s offs f → (∀ o ∈ offs, 0 < len o) → Visits len f s offs f
  | [], s, f, h, _ => by simp [Chain] at h; simp [Visits, h]
  | o :: os, s, f, h, hpos => by
    obtain ⟨h1, h2⟩ := h
    have hle := chain_le len os _ _ h2
    have hp : 0 < len o := hpos o (by simp)
    subst h1
    refine ⟨rfl, by omega, chain_visits len os _ _ h2 ?_⟩
    intro x hx
    exact hpos x (by simp [hx])

/-- A loop standing on a record of length zero below its bound never leaves it. -/
theorem visits_zero_stuck (len : Nat → Nat) (stop : Nat) : ∀ (offs : List Nat) (s f : Nat),
    Visits len stop s offs f → s < stop → len s = 0 → False
  | [], s, f, h, hs, _ => by obtain ⟨_, h2⟩ := h; omega
  | _ :: os, s, f, h, hs, hz => by
    obtain ⟨_, _, h3⟩ := h
    rw [hz, Nat.add_zero] at h3
    exact visits_zero_stuck len stop os s f h3 hs hz

/-- Every record a finite run visits has a nonzero length. -/
theorem visits_length_pos (len : Nat → Nat) (stop : Nat) : ∀ (offs : List Nat) (s f : Nat),
    Visits len stop s offs f → ∀ o ∈ offs, 0 < len o
  | [], _, _, _, o, ho => by simp at ho
  | x :: os, s, f, h, o, ho => by
    rcases List.mem_cons.mp ho with h1 | h1
    · have hx : x = s := h.1
      have hs : s < stop := h.2.1
      have ho : len o = len s := by rw [h1, hx]
      rcases Nat.eq_zero_or_pos (len s) with hz | hp
      · exact (visits_zero_stuck len stop (x :: os) s f h hs hz).elim
      · omega
    · exact visits_length_pos len stop os _ f h.2.2 o h1

/-- A loop is only left at or after its bound. -/
theorem visits_stop_le (len : Nat → Nat) (stop : Nat) : ∀ (offs : List Nat) (s f : Nat),
    Visits len stop s offs f → stop ≤ f
  | [], s, f, h => by obtain ⟨h1, h2⟩ := h; omega
  | o :: os, s, f, h => visits_stop_le len stop os _ _ h.2.2

/-- The counting loop, run along a finite walk with more fuel than the walk has
steps, adds the number of ENDPOINT and BRIDGE sub-records visited. -/
theorem count_loop_visits (m : Mem) (stop : Nat) : ∀ (offs : List Nat) (s f fuel n : Nat),
    Visits (scope_Length m) stop s offs f → offs.length < fuel →
    count_loop m stop fuel s n = some (n + counted m offs)
  | [], s, f, fuel, n, h, hf => by
    obtain ⟨_, h2⟩ := h
    cases fuel with
    | zero => simp at hf
    | succ k =>
      have : ¬ s < stop := by omega
      simp [count_loop, this, counted]
  | o :: os, s, f, fuel, n, h, hf => by
    obtain ⟨h1, h2, h3⟩ := h
    subst h1
    cases fuel with
    | zero => simp at hf
    | succ k =>
      have hk : os.length < k := by simpa using hf
      rw [count_loop, if_pos h2, count_loop_visits m stop os _ f k _ h3 hk]
      by_cases hc : is_counted m o
      · simp [counted, List.filter_cons, hc]; omega
      · simp [counted, List.filter_cons, hc]

/-- In counting mode `append_scopes` returns `MX_OK` and the count of the
sub-records its walk visits, whether or not the walk lands on the declared end. -/
theorem append_scopes_count_visits (m : Mem) (unit : Nat) (offs : List Nat) (f fuel max_scopes : Nat)
    (want : Bool)
    (h : Visits (scope_Length m) (unit + rec_Length m unit) (unit + 16) offs f)
    (hfuel : offs.length < fuel) :
    append_scopes m fuel unit none max_scopes want =
      .ret { status := MX_OK, desc := none,
             num_scopes_found := if want then some (counted m offs) else none } := by
  simp [append_scopes, count_loop_visits m _ offs _ f fuel 0 h hfuel]

/-- The fill loop makes no progress on a sub-record that is neither ENDPOINT nor
BRIDGE while there is room left: `scope` and `scope_index` come back unchanged,
so no amount of fuel lets the loop finish. -/
theorem fill_loop_stuck (m : Mem) (stop max_scopes scope scope_index : Nat)
    (desc : mx_iommu_desc_intel_t)
    (hs : scope < stop) (hi : scope_index < max_scopes) (hmax : max_scopes ≤ 18446744073709551616)
    (h1 : scope_EntryType m scope ≠ ACPI_DMAR_SCOPE_TYPE_ENDPOINT)
    (h2 : scope_EntryType m scope ≠ ACPI_DMAR_SCOPE_TYPE_BRIDGE) :
    ∀ fuel, fill_loop m stop max_scopes fuel scope scope_index desc = none
  | 0 => rfl
  | fuel + 1 => by
    have hidx : ((scope_index + 18446744073709551616 - 1) % 18446744073709551616 + 1)
        % 18446744073709551616 = scope_index := by omega
    rw [fill_loop, if_pos ⟨hs, hi⟩, if_neg h1, if_neg h2, hidx]
    exact fill_loop_stuck m stop max_scopes scope scope_index desc hs hi hmax h1 h2 fuel

/-- The sub-record walk of the unit of `table_mixed`. -/
theorem mixed_visits : Visits (scope_Length table_mixed) (48 + rec_Length table_mixed 48)
    (48 + 16) [64, 72] 80 := by decide

/-- The only statuses `append_scopes` returns are `MX_OK` and
`MX_ERR_BUFFER_TOO_SMALL`. -/
theorem append_scopes_status (m : Mem) (fuel unit : Nat) (desc : Option mx_iommu_desc_intel_t)
    (max_scopes : Nat) (want : Bool) (r : append_result)
    (h : append_scopes m fuel unit desc max_scopes want = .ret r) :
    r.status = MX_OK ∨ r.status = MX_ERR_BUFFER_TOO_SMALL := by
  unfold append_scopes at h
  simp only at h
  split at h
  · simp at h
  · split at h
    · simp only [Run.ret.injEq] at h
      subst h; simp
    · split at h
      · simp at h
      · split at h
        · simp only [Run.ret.injEq] at h
          subst h; simp
        · split at h
          · simp at h
          · simp only [Run.ret.injEq] at h
            subst h; simp

/-- The first loop of the whole-segment builder can only leave early with
`MX_ERR_BUFFER_TOO_SMALL`. -/
theorem whole_count_loop_status (m : Mem) (fuel unit e : Nat) :
    ∀ (k addr n : Nat) (st : mx_status_t),
    whole_count_loop m fuel unit e k addr n = .ret (.returned st) →
    st = MX_ERR_BUFFER_TOO_SMALL
  | 0, addr, n, st, h => by simp [whole_count_loop] at h
  | k + 1, addr, n, st, h => by
    rw [whole_count_loop] at h
    split at h
    · split at h
      · split at h
        · exact whole_count_loop_status m fuel unit e k _ _ st h
        · split at h
          · simp at h
          · simp at h
          · rename_i r hr
            split at h
            · rename_i hne
              simp only [Run.ret.injEq, LoopExit.returned.injEq] at h
              subst h
              rcases append_scopes_status m fuel addr none 0 true r hr with h1 | h1
              · exact absurd h1 hne
              · exact h1
            · exact whole_count_loop_status m fuel unit e k _ _ st h
      · exact whole_count_loop_status m fuel unit e k _ _ st h
    · simp at h

/-- The second loop of the whole-segment builder can only leave early with
`MX_ERR_BUFFER_TOO_SMALL`. -/
theorem whole_fill_loop_status (m : Mem) (fuel unit e num : Nat) :
    ∀ (k addr : Nat) (desc : mx_iommu_desc_intel_t) (st : mx_status_t),
    whole_fill_loop m fuel unit e num k addr desc = .ret (.returned st) →
    st = MX_ERR_BUFFER_TOO_SMALL
  | 0, addr, desc, st, h => by simp [whole_fill_loop] at h
  | k + 1, addr, desc, st, h => by
    rw [whole_fill_loop] at h
    split at h
    · split at h
      · split at h
        · exact whole_fill_loop_status m fuel unit e num k _ _ st h
        · split at h
          · simp at h
          · simp at h
          · rename_i r hr
            split at h
            · rename_i hne
              simp only [Run.ret.injEq, LoopExit.returned.injEq] at h
              subst h
              rcases append_scopes_status m fuel unit (some desc) num false r hr with h1 | h1
              · exact absurd h1 hne
              · exact h1
            · exact whole_fill_loop_status m fuel unit e num k _ _ st h
      · exact whole_fill_loop_status m fuel unit e num k _ _ st h
    · simp at h

/-- The failure statuses of `create_non_whole_segment_iommu_desc`. -/
theorem create_non_whole_status (env : Env) (m : Mem) (fuel unit : Nat) (st : mx_status_t)
    (h : create_non_whole_segment_iommu_desc env m fuel unit = .ret (.error st)) :
    st = MX_ERR_BUFFER_TOO_SMALL ∨ st = MX_ERR_NO_MEMORY := by
  unfold create_non_whole_segment_iommu_desc at h
  simp only at h
  split at h
  · simp at h
  · split at h
    · simp at h
    · simp at h
    · rename_i r hr
      split at h
      · rename_i hne
        simp only [Run.ret.injEq, builder_result.error.injEq] at h
        subst h
        rcases append_scopes_status m fuel unit none 0 true r hr with h1 | h1
        · exact absurd h1 hne
        · exact Or.inl h1
      · split at h
        · simp only [Run.ret.injEq, builder_result.error.injEq] at h
          exact Or.inr h.symm
        · split at h
          · simp at h
          · simp at h
          · rename_i r2 hr2
            split at h
            · rename_i hne
              simp only [Run.ret.injEq, builder_result.error.injEq] at h
              subst h
              rcases append_scopes_status m fuel unit _ _ false r2 hr2 with h1 | h1
              · exact absurd h1 hne
              · exact Or.inl h1
            · simp at h

/-- The failure statuses of `create_whole_segment_iommu_desc`. -/
theorem create_whole_status (env : Env) (m : Mem) (fuel unit : Nat) (st : mx_status_t)
    (h : create_whole_segment_iommu_desc env m fuel unit = .ret (.error st)) :
    st = MX_ERR_BUFFER_TOO_SMALL ∨ st = MX_ERR_NO_MEMORY := by
  unfold create_whole_segment_iommu_desc at h
  simp only at h
  split at h
  · simp at h
  · split at h
    · simp at h
    · simp at h
    · rename_i st1 hl
      simp only [Run.ret.injEq, builder_result.error.injEq] at h
      subst h
      exact Or.inl (whole_count_loop_status m fuel unit _ _ _ _ _ hl)
    · split at h
      · simp only [Run.ret.injEq, builder_result.error.injEq] at h
        exact Or.inr h.symm
      · split at h
        · simp at h
        · simp at h
        · rename_i st1 hl
          simp only [Run.ret.injEq, builder_result.error.injEq] at h
          subst h
          exact Or.inl (whole_fill_loop_status m fuel unit _ _ _ _ _ _ hl)
        · simp at h

/-- The failure statuses of the builder call of `find_iommus`. -/
theorem build_desc_status (env : Env) (m : Mem) (fuel rec : Nat) (st : mx_status_t)
    (h : build_desc env m fuel rec = .ret (.error st)) :
    st = MX_ERR_BUFFER_TOO_SMALL ∨ st = MX_ERR_NO_MEMORY := by
  unfold build_desc at h
  split at h
  · exact create_whole_status env m fuel rec st h
  · exact create_non_whole_status env m fuel rec st h

/-- The boundary calls of two event lists put together. -/
theorem calls_of_append (a b : List Event) : calls_of (a ++ b) = calls_of a ++ calls_of b := by
  induction a with
  | nil => rfl
  | cons e es ih => cases e <;> simp [calls_of, ih]

/-- The builder calls of two event lists put together. -/
theorem builds_of_append (a b : List Event) : builds_of (a ++ b) = builds_of a ++ builds_of b := by
  induction a with
  | nil => rfl
  | cons e es ih => cases e <;> simp [builds_of, ih]

/-- When every builder call and boundary call succeeds, the record loop of
`find_iommus` follows the walk to its end. -/
theorem find_loop_visits (env : Env) (m : Mem) (fuel e : Nat) :
    ∀ (offs : List Nat) (s f k : Nat) (tr : List Event),
    Visits (rec_Length m) e s offs f → offs.length < k →
    (∀ o ∈ offs, rec_Type m o = ACPI_DMAR_TYPE_HARDWARE_UNIT →
      ∃ d len, build_desc env m fuel o = .ret (.ok d len) ∧
        ∀ t, env.mx_iommu_create t d len = MX_OK) →
    ∃ tr1, find_loop env m fuel e k s tr = .ret (.finished f, tr1)
  | [], s, f, k, tr, h, hk, _ => by
    obtain ⟨h1, h2⟩ := h
    cases k with
    | zero => simp at hk
    | succ k =>
      have : ¬ s < e := by omega
      subst h1
      exact ⟨tr, by rw [find_loop, if_neg this]⟩
  | o :: os, s, f, k, tr, h, hk, hok => by
    obtain ⟨h1, h2, h3⟩ := h
    subst h1
    cases k with
    | zero => simp at hk
    | succ k =>
      have hk1 : os.length < k := by simpa using hk
      have hok1 : ∀ x ∈ os, rec_Type m x = ACPI_DMAR_TYPE_HARDWARE_UNIT →
          ∃ d len, build_desc env m fuel x = .ret (.ok d len) ∧
            ∀ t, env.mx_iommu_create t d len = MX_OK :=
        fun x hx => hok x (by simp [hx])
      rw [find_loop, if_pos h2]
      by_cases hty : rec_Type m o = ACPI_DMAR_TYPE_HARDWARE_UNIT
      · obtain ⟨d, len, hb, hc⟩ := hok o (by simp) hty
        rw [if_pos hty]
        simp only [hb, hc, ne_eq, not_true_eq_false, if_false]
        exact find_loop_visits env m fuel e os _ f k _ h3 hk1 hok1
      · rw [if_neg hty]
        exact find_loop_visits env m fuel e os _ f k _ h3 hk1 hok1

/-- An early return of the record loop of `find_iommus` never carries `MX_OK`. -/
theorem find_loop_returned_ne_ok (env : Env) (m : Mem) (fuel e : Nat) :
    ∀ (k s : Nat) (tr0 : List Event) (st : mx_status_t) (tr : List Event),
    find_loop env m fuel e k s tr0 = .ret (.returned st, tr) → st ≠ MX_OK
  | 0, s, tr0, st, tr, h => by simp [find_loop] at h
  | k + 1, s, tr0, st, tr, h => by
    rw [find_loop] at h
    split at h
    · split at h
      · simp only at h
        split at h
        · simp at h
        · simp at h
        · rename_i st1 hb
          simp only [Run.ret.injEq, Prod.mk.injEq, LoopExit.returned.injEq] at h
          obtain ⟨h1, _⟩ := h
          subst h1
          rcases build_desc_status env m fuel s _ hb with h2 | h2 <;> simp [h2]
        · split at h
          · rename_i hne
            simp only [Run.ret.injEq, Prod.mk.injEq, LoopExit.returned.injEq] at h
            obtain ⟨h1, _⟩ := h
            subst h1
            exact hne
          · exact find_loop_returned_ne_ok env m fuel e k _ _ st tr h
      · exact find_loop_returned_ne_ok env m fuel e k _ _ st tr h
    · simp at h

/-- What the builder call of `find_iommus` returns is built by the builder the
INCLUDE_ALL flag selects. -/
theorem builtFor_of_build_desc (env : Env) (m : Mem) (fuel rec : Nat)
    (d : mx_iommu_desc_intel_t) (len : Nat)
    (h : build_desc env m fuel rec = .ret (.ok d len)) : BuiltFor env m fuel rec (d, len) := by
  unfold build_desc include_all at h
  constructor
  · intro hf
    simpa [hf] using h
  · intro hf
    simpa [hf] using h

/-- When the record loop of `find_iommus` runs to its end, it has visited a finite
walk, entered one builder per hardware unit of the walk, and made one boundary
call per hardware unit, in order, on the descriptor built for it. -/
theorem find_loop_trace (env : Env) (m : Mem) (fuel e : Nat) :
    ∀ (k s : Nat) (tr0 : List Event) (f : Nat) (tr : List Event),
    find_loop env m fuel e k s tr0 = .ret (.finished f, tr) →
    ∃ offs, Visits (rec_Length m) e s offs f ∧
      builds_of tr = builds_of tr0 ++
        ((offs.filter (is_hardware_unit m)).map (fun rec => (include_all m rec, rec))) ∧
      ∃ cs, calls_of tr = calls_of tr0 ++ cs ∧
        List.Forall₂ (BuiltFor env m fuel) (offs.filter (is_hardware_unit m)) cs
  | 0, s, tr0, f, tr, h => by simp [find_loop] at h
  | k + 1, s, tr0, f, tr, h => by
    rw [find_loop] at h
    by_cases hs : s < e
    · rw [if_pos hs] at h
      by_cases hty : rec_Type m s = ACPI_DMAR_TYPE_HARDWARE_UNIT
      · rw [if_pos hty] at h
        have hhw : is_hardware_unit m s = true := by simp [is_hardware_unit, hty]
        cases hb : build_desc env m fuel s with
        | timeout => simp [hb] at h
        | abort => simp [hb] at h
        | ret r =>
          cases r with
          | error st => simp [hb] at h
          | ok d len =>
            simp only [hb] at h
            by_cases hc : env.mx_iommu_create
                (tr0 ++ [Event.builder_call (include_all m s) s]) d len = MX_OK
            · simp only [hc, ne_eq, not_true_eq_false, if_false] at h
              obtain ⟨offs, hv, hbs, cs, hcs, hfa⟩ := find_loop_trace env m fuel e k _ _ f tr h
              refine ⟨s :: offs, ⟨rfl, hs, hv⟩, ?_, (d, len) :: cs, ?_, ?_⟩
              · simp [hbs, builds_of_append, builds_of, List.filter_cons, hhw]
              · simp [hcs, calls_of_append, calls_of]
              · simp only [List.filter_cons, hhw, if_true]
                exact List.Forall₂.cons (builtFor_of_build_desc env m fuel s d len hb) hfa
            · simp [hc] at h
      · rw [if_neg hty] at h
        have hhw : is_hardware_unit m s = false := by simp [is_hardware_unit, hty]
        obtain ⟨offs, hv, hbs, cs, hcs, hfa⟩ := find_loop_trace env m fuel e k _ _ f tr h
        refine ⟨s :: offs, ⟨rfl, hs, hv⟩, ?_, cs, hcs, ?_⟩
        · simp [hbs, List.filter_cons, hhw]
        · simpa [List.filter_cons, hhw] using hfa
    · rw [if_neg hs] at h
      simp only [Run.ret.injEq, Prod.mk.injEq, LoopExit.finished.injEq] at h
      obtain ⟨h1, h2⟩ := h
      subst h1 h2
      exact ⟨[], ⟨rfl, by omega⟩, by simp, [], by simp, by simp⟩

/-- A run of the record loop that lands exactly on `e1` is the start of the run
with any later bound `e2`, which goes on from `e1` with fuel left. -/
theorem find_loop_extend (env : Env) (m : Mem) (fuel e1 e2 : Nat) (he : e1 ≤ e2) :
    ∀ (k s : Nat) (tr0 tr : List Event),
    find_loop env m fuel e1 k s tr0 = .ret (.finished e1, tr) →
    ∃ k1, find_loop env m fuel e2 k s tr0 = find_loop env m fuel e2 (k1 + 1) e1 tr
  | 0, s, tr0, tr, h => by simp [find_loop] at h
  | k + 1, s, tr0, tr, h => by
    rw [find_loop] at h
    by_cases hs : s < e1
    · have hs2 : s < e2 := by omega
      rw [if_pos hs] at h
      rw [find_loop, if_pos hs2]
      by_cases hty : rec_Type m s = ACPI_DMAR_TYPE_HARDWARE_UNIT
      · rw [if_pos hty] at h
        rw [if_pos hty]
        cases hb : build_desc env m fuel s with
        | timeout => simp [hb] at h
        | abort => simp [hb] at h
        | ret r =>
          cases r with
          | error st => simp [hb] at h
          | ok d len =>
            simp only [hb] at h
            by_cases hc : env.mx_iommu_create
                (tr0 ++ [Event.builder_call (include_all m s) s]) d len = MX_OK
            · simp only [hc, ne_eq, not_true_eq_false, if_false] at h
              simp only [hc, ne_eq, not_true_eq_false, if_false]
              exact find_loop_extend env m fuel e1 e2 he k _ _ tr h
            · simp [hc] at h
      · rw [if_neg hty] at h
        rw [if_neg hty]
        exact find_loop_extend env m fuel e1 e2 he k _ _ tr h
    · rw [if_neg hs] at h
      simp only [Run.ret.injEq, Prod.mk.injEq, LoopExit.finished.injEq] at h
      obtain ⟨h1, h2⟩ := h
      subst h1 h2
      exact ⟨k, rfl⟩

/-! ## Theorems about the specification -/

/-- C1 (evaluation at a failing input): on the one-endpoint unit of scenario A
`create_non_whole_segment_iommu_desc` returns the expected descriptor, but on
the unit of `table_mixed` (INCLUDE_ALL clear, two sub-records of length 8 filling
the unit exactly, the first of entry type 3 and the second an ENDPOINT) it
returns nothing, whatever the fuel: the fill loop never gets past the
sub-record of the other type. -/
theorem create_non_whole_segment_diverges_on_mixed_unit :
    create_non_whole_segment_iommu_desc env_ok table_endpoint 2 48 =
      .ret (.ok (desc_of false [endpoint_entry 1 16]) 28) ∧
    unit_Flags table_mixed 48 &&& ACPI_DMAR_INCLUDE_ALL = 0 ∧
    Chain (scope_Length table_mixed) (48 + 16) [64, 72] (48 + rec_Length table_mixed 48) ∧
    (∀ o ∈ [64, 72], 6 ≤ scope_Length table_mixed o) ∧
    ∀ fuel, create_non_whole_segment_iommu_desc env_ok table_mixed fuel 48 = .timeout := by
  refine ⟨by decide, by decide, by decide, by decide, ?_⟩
  intro fuel
  match fuel with
  | 0 => decide
  | 1 => decide
  | 2 => decide
  | k + 3 =>
    have hc := count_loop_visits table_mixed _ [64, 72] _ 80 (k + 3) 0 mixed_visits (by simp)
    have hcnt : counted table_mixed [64, 72] = 1 := by decide
    have hseg : unit_Segment table_mixed 48 = 0 := by decide
    have hfl : unit_Flags table_mixed 48 &&& ACPI_DMAR_INCLUDE_ALL = 0 := by decide
    have hst := fun d => fill_loop_stuck table_mixed (48 + rec_Length table_mixed 48) 1 64 0
      d (by decide) (by decide) (by decide) (by decide) (by decide) (k + 3)
    simp only [create_non_whole_segment_iommu_desc, append_scopes, hc, hcnt, hseg, hfl]
    simp [env_ok, hst]

/-- C2 (evaluation at a failing input): in `table_whole` the INCLUDE_ALL unit at
offset 72 is preceded by a unit on the same segment whose descriptor holds the
ENDPOINT on bus 1, yet the descriptor `create_whole_segment_iommu_desc` returns
for it has room for one entry and none in use: its scope list is empty.  When
the INCLUDE_ALL unit has a scope of its own (`table_whole_own`, ENDPOINT on bus
9), that scope is what the descriptor holds.  The second pass hands `unit`, not
the preceding record, to `append_scopes`. -/
theorem create_whole_segment_appends_own_scopes :
    unit_Flags table_whole 72 &&& ACPI_DMAR_INCLUDE_ALL ≠ 0 ∧
    unit_Segment table_whole 48 = unit_Segment table_whole 72 ∧
    create_non_whole_segment_iommu_desc env_ok table_whole 3 48 =
      .ret (.ok (desc_of false [endpoint_entry 1 16]) 28) ∧
    create_whole_segment_iommu_desc env_ok table_whole 3 72 = .ret (.ok whole_empty_desc 28) ∧
    scope_list whole_empty_desc = [] ∧
    create_whole_segment_iommu_desc env_ok table_whole_own 3 72 =
      .ret (.ok (desc_of true [endpoint_entry 9 24]) 28) := by
  decide

/-- C3: for a table that passes the table-level checks and whose forward record
walk from offset 48 is finite (it visits `offs` and stops at `f`; a finite walk
has no zero length on the way), if every builder call and every boundary call
on the visited hardware units succeeds, then with more fuel than records
`find_iommus` returns a status that is `MX_OK` exactly when the walk lands on
`Header.Length`, and `MX_ERR_IO_DATA_INTEGRITY` when the walk steps past it. -/
theorem find_iommus_ok_iff_walk_lands (env : Env) (m : Mem) (offs : List Nat) (f fuel : Nat)
    (hlo : sizeof_ACPI_TABLE_DMAR < Header_Length m) (hhi : Header_Length m ≤ 4096)
    (hwalk : Visits (rec_Length m) (Header_Length m) sizeof_ACPI_TABLE_DMAR offs f)
    (hfuel : offs.length < fuel)
    (hok : ∀ o ∈ offs, rec_Type m o = ACPI_DMAR_TYPE_HARDWARE_UNIT →
      ∃ d len, build_desc env m fuel o = .ret (.ok d len) ∧
        ∀ t, env.mx_iommu_create t d len = MX_OK) :
    ∃ st tr, find_iommus env (some m) fuel = .ret (st, tr) ∧
      (st = MX_OK ↔ f = Header_Length m) ∧
      (Header_Length m < f → st = MX_ERR_IO_DATA_INTEGRITY) := by
  obtain ⟨tr, htr⟩ := find_loop_visits env m fuel _ offs _ f fuel [] hwalk hfuel hok
  have h1 : ¬ sizeof_ACPI_TABLE_DMAR ≥ Header_Length m := by omega
  have h2 : ¬ Header_Length m > 4096 := by omega
  by_cases hf : f = Header_Length m
  · refine ⟨MX_OK, tr, ?_, by simp [hf], ?_⟩
    · simp [find_iommus, h1, h2, htr, hf]
    · intro h; omega
  · refine ⟨MX_ERR_IO_DATA_INTEGRITY, tr, ?_, by simp [hf], fun _ => rfl⟩
    simp [find_iommus, h1, h2, htr, hf]

/-- Witness for C3: the one-unit table of scenario A. -/
theorem find_iommus_ok_iff_walk_lands_witness :
    Visits (rec_Length table_endpoint) (Header_Length table_endpoint) sizeof_ACPI_TABLE_DMAR [48] 72 ∧
    ∃ st tr, find_iommus env_ok (some table_endpoint) 2 = .ret (st, tr) ∧
      (st = MX_OK ↔ 72 = Header_Length table_endpoint) ∧
      (Header_Length table_endpoint < 72 → st = MX_ERR_IO_DATA_INTEGRITY) :=
  ⟨by decide,
    find_iommus_ok_iff_walk_lands env_ok table_endpoint [48] 72 2 (by decide) (by decide)
      (by decide) (by decide)
      (by
        intro o ho _
        simp only [List.mem_singleton] at ho
        subst ho
        exact ⟨desc_of false [endpoint_entry 1 16], 28, by decide, fun _ => rfl⟩)⟩

/-- C4: a table whose `Header.Length` exceeds 4096, or is at most the size 48 of
the fixed table header, is rejected with `MX_ERR_IO_DATA_INTEGRITY` and an
empty event list, for every fuel (also none): no record is parsed, no builder
is entered and no boundary call is made. -/
theorem find_iommus_rejects_bad_length (env : Env) (m : Mem) (fuel : Nat)
    (h : 4096 < Header_Length m ∨ Header_Length m ≤ sizeof_ACPI_TABLE_DMAR) :
    find_iommus env (some m) fuel = .ret (MX_ERR_IO_DATA_INTEGRITY, []) := by
  unfold find_iommus
  rcases h with h | h
  · by_cases h1 : sizeof_ACPI_TABLE_DMAR ≥ Header_Length m
    · simp [h1]
    · simp [h1, h]
  · simp [h]

/-- Witness for C4: `Header.Length = 5000`. -/
theorem find_iommus_rejects_bad_length_witness :
    (4096 < Header_Length table_long ∨ Header_Length table_long ≤ sizeof_ACPI_TABLE_DMAR) ∧
    find_iommus env_ok (some table_long) 0 = .ret (MX_ERR_IO_DATA_INTEGRITY, []) :=
  ⟨by decide, find_iommus_rejects_bad_length env_ok table_long 0 (by decide)⟩

/-- C5 (evaluation at a failing input): for the unit of `table_mixed`, whose two
sub-records of length 8 fill it exactly, the counting pass reports one scope, and the fill pass into an empty descriptor of
capacity one returns nothing, whatever the fuel: it loops on the first
sub-record, whose entry type is neither ENDPOINT nor BRIDGE. -/
theorem append_scopes_fill_diverges_on_mixed_unit :
    Chain (scope_Length table_mixed) (48 + 16) [64, 72] (48 + rec_Length table_mixed 48) ∧
    (∀ o ∈ [64, 72], 6 ≤ scope_Length table_mixed o) ∧
    unit_Segment table_mixed 48 = empty_desc.pci_segment ∧
    append_scopes table_mixed 3 48 none 0 true =
      .ret { status := MX_OK, desc := none, num_scopes_found := some 1 } ∧
    ∀ fuel, append_scopes table_mixed fuel 48
      (some empty_desc) 1 false = .timeout := by
  refine ⟨by decide, by decide, by decide, by decide, ?_⟩
  intro fuel
  match fuel with
  | 0 => decide
  | 1 => decide
  | 2 => decide
  | k + 3 =>
    have hc := count_loop_visits table_mixed _ [64, 72] _ 80 (k + 3) 0 mixed_visits (by simp)
    have hcnt : counted table_mixed [64, 72] = 1 := by decide
    have hseg : unit_Segment table_mixed 48 = 0 := by decide
    have hst := fun d => fill_loop_stuck table_mixed (48 + rec_Length table_mixed 48) 1 64 0
      d (by decide) (by decide) (by decide) (by decide) (by decide) (k + 3)
    simp only [append_scopes, hc, hcnt, hseg]
    simp [empty_desc, hst]

/-- C6: when the counting walk of the unit is finite and `desc->num_scopes` plus
the number of ENDPOINT and BRIDGE sub-records exceeds `max_scopes`, a call of
`append_scopes` with a descriptor on the segment of the unit (the condition of
the `assert`) returns `MX_ERR_BUFFER_TOO_SMALL` and leaves the descriptor as it
was: the same `num_scopes` and the same entries. -/
theorem append_scopes_buffer_too_small (m : Mem) (unit : Nat) (offs : List Nat) (f fuel : Nat)
    (desc : mx_iommu_desc_intel_t) (max_scopes : Nat) (want : Bool)
    (hwalk : Visits (scope_Length m) (unit + rec_Length m unit) (unit + 16) offs f)
    (hseg : unit_Segment m unit = desc.pci_segment)
    (hcap : max_scopes < desc.num_scopes + counted m offs)
    (hfuel : offs.length < fuel) :
    append_scopes m fuel unit (some desc) max_scopes want =
      .ret { status := MX_ERR_BUFFER_TOO_SMALL, desc := some desc,
             num_scopes_found := if want then some (counted m offs) else none } := by
  simp [append_scopes, count_loop_visits m _ offs _ f fuel 0 hwalk hfuel, hseg, hcap]

/-- Witness for C6: the one-endpoint unit and an empty descriptor of capacity 0. -/
theorem append_scopes_buffer_too_small_witness :
    Visits (scope_Length table_endpoint) (48 + rec_Length table_endpoint 48) (48 + 16) [64] 72 ∧
    append_scopes table_endpoint 2 48
      (some { register_base := 0, pci_segment := 0, whole_segment := false,
              num_scopes := 0, scopes := [] }) 0 false =
      .ret { status := MX_ERR_BUFFER_TOO_SMALL,
             desc := some { register_base := 0, pci_segment := 0, whole_segment := false,
                            num_scopes := 0, scopes := [] },
             num_scopes_found := none } :=
  ⟨by decide,
    append_scopes_buffer_too_small table_endpoint 48 [64] 72 2 _ 0 false
      (by decide) (by decide) (by decide) (by decide)⟩

/-- C7: for a hardware unit whose sub-records, at the offsets `offs` from byte
16 of the unit, have nonzero lengths and end exactly at the declared end of the
unit, `append_scopes` in counting mode (no descriptor) returns `MX_OK` and
reports the number of those sub-records whose entry type is ENDPOINT or BRIDGE;
the others are stepped over and not counted. -/
theorem append_scopes_counting_mode (m : Mem) (unit : Nat) (offs : List Nat)
    (fuel max_scopes : Nat)
    (hchain : Chain (scope_Length m) (unit + 16) offs (unit + rec_Length m unit))
    (hnz : ∀ o ∈ offs, 0 < scope_Length m o)
    (hfuel : offs.length < fuel) :
    append_scopes m fuel unit none max_scopes true =
      .ret { status := MX_OK, desc := none, num_scopes_found := some (counted m offs) } := by
  have hv := chain_visits (scope_Length m) offs _ _ hchain hnz
  simpa using append_scopes_count_visits m unit offs _ fuel max_scopes true hv hfuel

/-- Witness for C7: the unit of `table_mixed`, with one sub-record of another
type and one ENDPOINT. -/
theorem append_scopes_counting_mode_witness :
    Chain (scope_Length table_mixed) (48 + 16) [64, 72] (48 + rec_Length table_mixed 48) ∧
    (∀ o ∈ [64, 72], 0 < scope_Length table_mixed o) ∧
    append_scopes table_mixed 3 48 none 0 true =
      .ret { status := MX_OK, desc := none, num_scopes_found := some (counted table_mixed [64, 72]) } :=
  ⟨by decide, by decide,
    append_scopes_counting_mode table_mixed 48 [64, 72] 3 0 (by decide) (by decide) (by decide)⟩

/-- C8: when `find_iommus` returns `MX_OK`, the record walk from offset 48 lands
on `Header.Length`; the builders entered are, in table order, one per
hardware-unit record of the walk, the whole-segment one exactly when the
INCLUDE_ALL flag is set; and the boundary calls are, in the same order, one per
hardware-unit record, each on the descriptor and length returned by that
builder.  Records of other types give no builder call and no boundary call. -/
theorem find_iommus_one_call_per_unit (env : Env) (m : Mem) (fuel : Nat) (tr : List Event)
    (hok : find_iommus env (some m) fuel = .ret (MX_OK, tr)) :
    ∃ offs, Visits (rec_Length m) (Header_Length m) sizeof_ACPI_TABLE_DMAR offs (Header_Length m) ∧
      builds_of tr = (offs.filter (is_hardware_unit m)).map (fun rec => (include_all m rec, rec)) ∧
      List.Forall₂ (BuiltFor env m fuel) (offs.filter (is_hardware_unit m)) (calls_of tr) := by
  unfold find_iommus at hok
  simp only at hok
  split at hok
  · simp at hok
  · split at hok
    · simp at hok
    · split at hok
      · simp at hok
      · simp at hok
      · rename_i st tr1 hl
        simp only [Run.ret.injEq, Prod.mk.injEq] at hok
        obtain ⟨h1, h2⟩ := hok
        subst h2
        exact absurd h1 (find_loop_returned_ne_ok env m fuel _ _ _ _ _ _ hl)
      · rename_i addr tr1 hl
        split at hok
        · simp at hok
        · rename_i hadd
          simp only [Run.ret.injEq, Prod.mk.injEq, true_and] at hok
          subst hok
          have hadd1 : addr = Header_Length m := by simpa using hadd
          subst hadd1
          obtain ⟨offs, hv, hbs, cs, hcs, hfa⟩ := find_loop_trace env m fuel _ _ _ _ _ _ hl
          refine ⟨offs, hv, by simpa [builds_of] using hbs, ?_⟩
          have : calls_of tr1 = cs := by simpa [calls_of] using hcs
          rw [this]; exact hfa

/-- Witness for C8: the two units of `table_whole`. -/
theorem find_iommus_one_call_per_unit_witness :
    ∃ offs, Visits (rec_Length table_whole) (Header_Length table_whole) sizeof_ACPI_TABLE_DMAR offs
        (Header_Length table_whole) ∧
      builds_of [Event.builder_call false 48,
        Event.iommu_create (desc_of false [endpoint_entry 1 16]) 28,
        Event.builder_call true 72,
        Event.iommu_create whole_empty_desc 28] =
        (offs.filter (is_hardware_unit table_whole)).map
          (fun rec => (include_all table_whole rec, rec)) ∧
      List.Forall₂ (BuiltFor env_ok table_whole 3) (offs.filter (is_hardware_unit table_whole))
        (calls_of [Event.builder_call false 48,
        Event.iommu_create (desc_of false [endpoint_entry 1 16]) 28,
        Event.builder_call true 72,
        Event.iommu_create whole_empty_desc 28]) :=
  find_iommus_one_call_per_unit env_ok table_whole 3 _ (by decide)

/-- C9: let the record loop, run on the records before the hardware unit at
`rec`, reach `rec` with every earlier builder and boundary call successful and
the events `tr`.  If the builder fails on `rec`, `find_iommus` returns that
status and the events are `tr` followed by the builder call alone; if the
builder succeeds and the boundary call fails, `find_iommus` returns the status
of the boundary call and the events are `tr` followed by the builder call and
the failing boundary call.  Nothing after `rec` is processed, and the earlier
calls stand. -/
theorem find_iommus_fail_fast (env : Env) (m : Mem) (fuel rec : Nat) (tr : List Event)
    (hlo : sizeof_ACPI_TABLE_DMAR < Header_Length m) (hhi : Header_Length m ≤ 4096)
    (hpre : find_loop env m fuel rec fuel sizeof_ACPI_TABLE_DMAR [] = .ret (.finished rec, tr))
    (hin : rec < Header_Length m)
    (hty : rec_Type m rec = ACPI_DMAR_TYPE_HARDWARE_UNIT) :
    (∀ st, build_desc env m fuel rec = .ret (.error st) →
      find_iommus env (some m) fuel =
        .ret (st, tr ++ [Event.builder_call (include_all m rec) rec])) ∧
    (∀ d len, build_desc env m fuel rec = .ret (.ok d len) →
      env.mx_iommu_create (tr ++ [Event.builder_call (include_all m rec) rec]) d len ≠ MX_OK →
      find_iommus env (some m) fuel =
        .ret (env.mx_iommu_create (tr ++ [Event.builder_call (include_all m rec) rec]) d len,
          tr ++ [Event.builder_call (include_all m rec) rec, Event.iommu_create d len])) := by
  obtain ⟨k1, hk1⟩ := find_loop_extend env m fuel rec (Header_Length m) (by omega) _ _ _ _ hpre
  have h1 : ¬ sizeof_ACPI_TABLE_DMAR ≥ Header_Length m := by omega
  have h2 : ¬ Header_Length m > 4096 := by omega
  constructor
  · intro st hb
    have : find_loop env m fuel (Header_Length m) fuel sizeof_ACPI_TABLE_DMAR [] =
        .ret (.returned st, tr ++ [Event.builder_call (include_all m rec) rec]) := by
      rw [hk1, find_loop, if_pos hin, if_pos hty]
      simp [hb]
    simp [find_iommus, h1, h2, this]
  · intro d len hb hc
    have : find_loop env m fuel (Header_Length m) fuel sizeof_ACPI_TABLE_DMAR [] =
        .ret (.returned
            (env.mx_iommu_create (tr ++ [Event.builder_call (include_all m rec) rec]) d len),
          tr ++ [Event.builder_call (include_all m rec) rec, Event.iommu_create d len]) := by
      rw [hk1, find_loop, if_pos hin, if_pos hty]
      simp [hb, hc]
    simp [find_iommus, h1, h2, this]

/-- Witness for C9: in `table_whole` the boundary call rejects the descriptor of
the second unit. -/
theorem find_iommus_fail_fast_witness :
    find_loop env_reject_whole table_whole 3 72 3 sizeof_ACPI_TABLE_DMAR [] =
      .ret (.finished 72, [Event.builder_call false 48,
        Event.iommu_create (desc_of false [endpoint_entry 1 16]) 28]) ∧
    find_iommus env_reject_whole (some table_whole) 3 =
      .ret (MX_ERR_OTHER (-1), [Event.builder_call false 48,
        Event.iommu_create (desc_of false [endpoint_entry 1 16]) 28,
        Event.builder_call true 72,
        Event.iommu_create whole_empty_desc 28]) :=
  ⟨by decide,
    (find_iommus_fail_fast env_reject_whole table_whole 3 72
      [Event.builder_call false 48, Event.iommu_create (desc_of false [endpoint_entry 1 16]) 28]
      (by decide) (by decide) (by decide) (by decide) (by decide)).2
      whole_empty_desc 28 (by decide) (by decide)⟩

/-- C10 (counterexample): the unit of `table_overrun` declares length 24, but
its sub-record declares length 10 and so runs from offset 64 past the end of the
unit at 72: no sequence of sub-records fills the unit exactly.  Counting returns `MX_OK`, the builder returns a descriptor with
two hops (the second read from offsets 72 and 73), and `find_iommus` returns
`MX_OK`: nothing fails with `MX_ERR_IO_DATA_INTEGRITY`. -/
theorem append_scopes_accepts_overrun :
    rec_Length table_overrun 48 = 24 ∧ scope_Length table_overrun 64 = 10 ∧
    (∀ offs, ¬ Chain (scope_Length table_overrun) (48 + 16) offs
      (48 + rec_Length table_overrun 48)) ∧
    append_scopes table_overrun 5 48 none 0 true =
      .ret { status := MX_OK, desc := none, num_scopes_found := some 1 } ∧
    create_non_whole_segment_iommu_desc env_ok table_overrun 5 48 =
      .ret (.ok (desc_of false [{ type := 0, start_bus := 1, num_hops := 2, dev_func := [16, 0] }]) 28) ∧
    find_iommus env_ok (some table_overrun) 5 =
      .ret (MX_OK, [Event.builder_call false 48,
        Event.iommu_create (desc_of false [{ type := 0, start_bus := 1, num_hops := 2, dev_func := [16, 0] }]) 28]) := by
  refine ⟨by decide, by decide, ?_, by decide, by decide, by decide⟩
  intro offs h
  have h24 : rec_Length table_overrun 48 = 24 := by decide
  have h10 : scope_Length table_overrun (48 + 16) = 10 := by decide
  cases offs with
  | nil =>
    have h0 : 48 + 16 = 48 + rec_Length table_overrun 48 := h
    omega
  | cons o os =>
    have hle := chain_le _ os _ _ h.2
    omega

/-- C10 (amended): the sub-record area is not checked against the declared end
of the unit.  Whenever the sub-record walk is finite, whether it lands on the
declared end or steps past it, counting mode returns `MX_OK` with the number of
ENDPOINT and BRIDGE sub-records that start before the declared end; and
neither `append_scopes` nor the two builders ever return
`MX_ERR_IO_DATA_INTEGRITY`. -/
theorem append_scopes_no_integrity_check (env : Env) (m : Mem) (unit : Nat) (offs : List Nat) (f fuel : Nat)
    (hwalk : Visits (scope_Length m) (unit + rec_Length m unit) (unit + 16) offs f)
    (hfuel : offs.length < fuel) :
    append_scopes m fuel unit none 0 true =
      .ret { status := MX_OK, desc := none, num_scopes_found := some (counted m offs) } ∧
    (∀ desc max_scopes want r, append_scopes m fuel unit desc max_scopes want = .ret r →
      r.status ≠ MX_ERR_IO_DATA_INTEGRITY) ∧
    (∀ st, create_non_whole_segment_iommu_desc env m fuel unit = .ret (.error st) →
      st ≠ MX_ERR_IO_DATA_INTEGRITY) ∧
    (∀ st, create_whole_segment_iommu_desc env m fuel unit = .ret (.error st) →
      st ≠ MX_ERR_IO_DATA_INTEGRITY) := by
  refine ⟨?_, ?_, ?_, ?_⟩
  · simpa using append_scopes_count_visits m unit offs f fuel 0 true hwalk hfuel
  · intro desc max_scopes want r h
    rcases append_scopes_status m fuel unit desc max_scopes want r h with h1 | h1 <;> simp [h1]
  · intro st h
    rcases create_non_whole_status env m fuel unit st h with h1 | h1 <;> simp [h1]
  · intro st h
    rcases create_whole_status env m fuel unit st h with h1 | h1 <;> simp [h1]

/-- Witness for the amended C10: the overrunning unit of `table_overrun`. -/
theorem append_scopes_no_integrity_check_witness :
    Visits (scope_Length table_overrun) (48 + rec_Length table_overrun 48) (48 + 16) [64] 74 ∧
    48 + rec_Length table_overrun 48 < 74 ∧
    append_scopes table_overrun 5 48 none 0 true =
      .ret { status := MX_OK, desc := none,
             num_scopes_found := some (counted table_overrun [64]) } :=
  ⟨by decide, by decide,
    (append_scopes_no_integrity_check env_ok table_overrun 48 [64] 74 5 (by decide) (by decide)).1⟩

/-- Along a walk without hardware units the record loop of `find_iommus` runs to
the end and adds no event. -/
theorem find_loop_skips (env : Env) (m : Mem) (fuel e : Nat) :
    ∀ (offs : List Nat) (s f k : Nat) (tr : List Event),
    Visits (rec_Length m) e s offs f → offs.length < k →
    (∀ o ∈ offs, rec_Type m o ≠ ACPI_DMAR_TYPE_HARDWARE_UNIT) →
    find_loop env m fuel e k s tr = .ret (.finished f, tr)
  | [], s, f, k, tr, h, hk, _ => by
    obtain ⟨h1, h2⟩ := h
    cases k with
    | zero => simp at hk
    | succ k =>
      have : ¬ s < e := by omega
      subst h1
      rw [find_loop, if_neg this]
  | o :: os, s, f, k, tr, h, hk, hno => by
    obtain ⟨h1, h2, h3⟩ := h
    subst h1
    cases k with
    | zero => simp at hk
    | succ k =>
      have hk1 : os.length < k := by simpa using hk
      rw [find_loop, if_pos h2, if_neg (hno o (by simp))]
      exact find_loop_skips env m fuel e os _ f k tr h3 hk1 (fun x hx => hno x (by simp [hx]))

/-- C13: for a table that passes the table-level checks, whose records (at the
offsets `offs`, from offset 48) have nonzero lengths and end exactly at
`Header.Length`, and none of which is a hardware unit, `find_iommus` with more
fuel than records returns `MX_OK` with no event at all: no builder is entered
and `mx_iommu_create` is not called. -/
theorem find_iommus_without_units (env : Env) (m : Mem) (offs : List Nat) (fuel : Nat)
    (hlo : sizeof_ACPI_TABLE_DMAR < Header_Length m) (hhi : Header_Length m ≤ 4096)
    (hchain : Chain (rec_Length m) sizeof_ACPI_TABLE_DMAR offs (Header_Length m))
    (hnz : ∀ o ∈ offs, 0 < rec_Length m o)
    (hno : ∀ o ∈ offs, rec_Type m o ≠ ACPI_DMAR_TYPE_HARDWARE_UNIT)
    (hfuel : offs.length < fuel) :
    find_iommus env (some m) fuel = .ret (MX_OK, []) := by
  have hv := chain_visits (rec_Length m) offs _ _ hchain hnz
  have hl := find_loop_skips env m fuel _ offs _ _ fuel [] hv hfuel hno
  have h1 : ¬ sizeof_ACPI_TABLE_DMAR ≥ Header_Length m := by omega
  have h2 : ¬ Header_Length m > 4096 := by omega
  simp [find_iommus, h1, h2, hl]

/-- Witness for C13: a table holding one record of type 1. -/
theorem find_iommus_without_units_witness :
    Chain (rec_Length table_no_units) sizeof_ACPI_TABLE_DMAR [48] (Header_Length table_no_units) ∧
    find_iommus env_ok (some table_no_units) 2 = .ret (MX_OK, []) :=
  ⟨by decide,
    find_iommus_without_units env_ok table_no_units [48] 2 (by decide) (by decide) (by decide)
      (by decide) (by decide) (by decide)⟩

/-- C14: for a hardware unit with INCLUDE_ALL clear whose sub-records (at the
offsets `offs`, possibly none) have nonzero lengths, fill the unit exactly and
are none of them ENDPOINT or BRIDGE, `create_non_whole_segment_iommu_desc`
returns `MX_OK`, when the allocation succeeds, with a descriptor of the unit
whose `num_scopes` is 0 and a `desc_len` that is the bare descriptor size. -/
theorem create_non_whole_segment_without_scopes (env : Env) (m : Mem) (unit : Nat)
    (offs : List Nat) (fuel : Nat)
    (hflag : unit_Flags m unit &&& ACPI_DMAR_INCLUDE_ALL = 0)
    (hchain : Chain (scope_Length m) (unit + 16) offs (unit + rec_Length m unit))
    (hnz : ∀ o ∈ offs, 0 < scope_Length m o)
    (hother : ∀ o ∈ offs, is_counted m o = false)
    (hmalloc : env.malloc_ok env.sizeof_desc = true)
    (hfuel : offs.length < fuel) :
    create_non_whole_segment_iommu_desc env m fuel unit =
      .ret (.ok { register_base := unit_Address m unit, pci_segment := unit_Segment m unit,
                  whole_segment := false, num_scopes := 0, scopes := [] } env.sizeof_desc) := by
  have hv := chain_visits (scope_Length m) offs _ _ hchain hnz
  have hc := count_loop_visits m _ offs _ _ fuel 0 hv hfuel
  have h0 : counted m offs = 0 := by
    unfold counted
    rw [List.length_eq_zero, List.filter_eq_nil_iff]
    intro o ho
    simp [hother o ho]
  obtain ⟨k, rfl⟩ : ∃ k, fuel = k + 1 := ⟨fuel - 1, by omega⟩
  rw [h0] at hc
  simp [create_non_whole_segment_iommu_desc, append_scopes, hflag, hc, hmalloc, fill_loop]

/-- Witness for C14: a unit whose only sub-record has entry type 3. -/
theorem create_non_whole_segment_without_scopes_witness :
    Chain (scope_Length table_other_only) (48 + 16) [64] (48 + rec_Length table_other_only 48) ∧
    create_non_whole_segment_iommu_desc env_ok table_other_only 2 48 =
      .ret (.ok { register_base := unit_Address table_other_only 48,
                  pci_segment := unit_Segment table_other_only 48,
                  whole_segment := false, num_scopes := 0, scopes := [] } env_ok.sizeof_desc) :=
  ⟨by decide,
    create_non_whole_segment_without_scopes env_ok table_other_only 48 [64] 2 (by decide)
      (by decide) (by decide) (by decide) (by decide) (by decide)⟩

/-- C12 (evaluation at a failing input): for the INCLUDE_ALL unit at offset 72
of `table_whole`, `create_whole_segment_iommu_desc` returns `MX_OK` with a
buffer allocated for one entry (`desc_len` is the descriptor size plus one
entry size, and the storage holds one slot) while `num_scopes` is 0: the slot
sized from the preceding unit is left unused. -/
theorem create_whole_segment_leaves_slack :
    create_whole_segment_iommu_desc env_ok table_whole 3 72 = .ret (.ok whole_empty_desc 28) ∧
    whole_empty_desc.num_scopes = 0 ∧
    whole_empty_desc.scopes.length = 1 ∧
    28 = env_ok.sizeof_desc + env_ok.sizeof_scope * 1 ∧
    28 ≠ env_ok.sizeof_desc + env_ok.sizeof_scope * whole_empty_desc.num_scopes := by
  decide

/-- C15 (evaluation at a failing input): the two sub-records of the unit of
`table_mixed` have length 8 and fill the unit exactly, and the empty descriptor
of capacity one has room for its one ENDPOINT; yet the fill loop of
`append_scopes` does not finish within any number of iterations, as it never
walks past the first sub-record, of entry type 3. -/
theorem fill_loop_never_finishes_on_mixed_unit :
    Chain (scope_Length table_mixed) (48 + 16) [64, 72] (48 + rec_Length table_mixed 48) ∧
    (∀ o ∈ [64, 72], 6 ≤ scope_Length table_mixed o) ∧
    empty_desc.num_scopes + counted table_mixed [64, 72] ≤ 1 ∧
    ∀ fuel, fill_loop table_mixed (48 + rec_Length table_mixed 48) 1 fuel (48 + 16)
      empty_desc.num_scopes empty_desc = none := by
  refine ⟨by decide, by decide, by decide, ?_⟩
  exact fill_loop_stuck table_mixed _ 1 _ _ empty_desc (by decide) (by decide) (by decide)
    (by decide) (by decide)

/-- C19 (evaluation at a failing input): in `table_whole_two` the unit before
the INCLUDE_ALL unit at offset 72 has one ENDPOINT and the INCLUDE_ALL unit has
two.  The first pass sizes the descriptor for one entry; the second pass hands
the INCLUDE_ALL unit itself to `append_scopes`, whose two scopes do not fit:
the builder, and with it `find_iommus`, returns `MX_ERR_BUFFER_TOO_SMALL`. -/
theorem create_whole_segment_buffer_too_small :
    Chain (rec_Length table_whole_two) sizeof_ACPI_TABLE_DMAR [48, 72]
      (Header_Length table_whole_two) ∧
    Chain (scope_Length table_whole_two) (72 + 16) [88, 96] (72 + rec_Length table_whole_two 72) ∧
    whole_count_loop table_whole_two 3 72 72 3 sizeof_ACPI_TABLE_DMAR 0 = .ret (.finished 1) ∧
    create_whole_segment_iommu_desc env_ok table_whole_two 3 72 =
      .ret (.error MX_ERR_BUFFER_TOO_SMALL) ∧
    find_iommus env_ok (some table_whole_two) 3 =
      .ret (MX_ERR_BUFFER_TOO_SMALL,
        [Event.builder_call false 48, Event.iommu_create (desc_of false [endpoint_entry 1 16]) 28,
         Event.builder_call true 72]) := by
  decide

/-- The first pass of the whole-segment builder, along a finite record walk on
which every hardware unit of the segment has a finite sub-record walk, adds up
the counts of those units. -/
theorem whole_count_loop_sum (m : Mem) (fuel unit e : Nat) (subs : Nat → List Nat) :
    ∀ (recs : List Nat) (s f k n : Nat),
    Visits (rec_Length m) e s recs f → recs.length < k →
    (∀ r ∈ recs, on_segment m unit r = true →
      ∃ g, Visits (scope_Length m) (r + rec_Length m r) (r + 16) (subs r) g ∧
        (subs r).length < fuel) →
    whole_count_loop m fuel unit e k s n =
      .ret (.finished (n + ((recs.filter (on_segment m unit)).map
        (fun r => counted m (subs r))).sum))
  | [], s, f, k, n, h, hk, _ => by
    obtain ⟨h1, h2⟩ := h
    cases k with
    | zero => simp at hk
    | succ k =>
      have : ¬ s < e := by omega
      rw [whole_count_loop, if_neg this]
      simp
  | o :: os, s, f, k, n, h, hk, hsub => by
    obtain ⟨h1, h2, h3⟩ := h
    subst h1
    cases k with
    | zero => simp at hk
    | succ k =>
      have hk1 : os.length < k := by simpa using hk
      have hsub1 : ∀ r ∈ os, on_segment m unit r = true →
          ∃ g, Visits (scope_Length m) (r + rec_Length m r) (r + 16) (subs r) g ∧
            (subs r).length < fuel := fun r hr => hsub r (by simp [hr])
      rw [whole_count_loop, if_pos h2]
      by_cases hty : rec_Type m o = ACPI_DMAR_TYPE_HARDWARE_UNIT
      · rw [if_pos hty]
        by_cases hseg : unit_Segment m o ≠ unit_Segment m unit
        · rw [if_pos hseg]
          have hon : on_segment m unit o = false := by
            simp [on_segment, is_hardware_unit, hty, hseg]
          rw [whole_count_loop_sum m fuel unit e subs os _ f k n h3 hk1 hsub1]
          simp [List.filter_cons, hon]
        · rw [if_neg hseg]
          have hseg1 : unit_Segment m o = unit_Segment m unit := by simpa using hseg
          have hon : on_segment m unit o = true := by
            simp [on_segment, is_hardware_unit, hty, hseg1]
          obtain ⟨g, hg, hgf⟩ := hsub o (by simp) hon
          rw [append_scopes_count_visits m o (subs o) g fuel 0 true hg hgf]
          simp only [ne_eq, not_true_eq_false, if_false, if_true, Option.getD_some]
          rw [whole_count_loop_sum m fuel unit e subs os _ f k _ h3 hk1 hsub1]
          simp [List.filter_cons, hon, Nat.add_assoc]
      · rw [if_neg hty]
        have hon : on_segment m unit o = false := by
          simp [on_segment, is_hardware_unit, hty]
        rw [whole_count_loop_sum m fuel unit e subs os _ f k n h3 hk1 hsub1]
        simp [List.filter_cons, hon]

/-- C18: let the records before the INCLUDE_ALL unit `unit` be those at `recs`
(from offset 48, nonzero lengths, ending exactly at `unit`), and let each
hardware unit `r` among them on the segment of `unit` have its sub-records at
`subs r` (nonzero lengths, filling `r` exactly).  Then the first pass of
`create_whole_segment_iommu_desc` ends with the sum of the ENDPOINT and BRIDGE
counts of exactly those units: records of other types and units of other
segments add nothing, and `unit` and what follows it are not visited.  The
builder asks `malloc` for the descriptor size plus that many entry sizes, and
whenever it returns `MX_OK` its `desc_len` is that size. -/
theorem create_whole_segment_capacity (env : Env) (m : Mem) (unit : Nat) (recs : List Nat)
    (subs : Nat → List Nat) (fuel : Nat)
    (hflag : unit_Flags m unit &&& ACPI_DMAR_INCLUDE_ALL ≠ 0)
    (hrecs : Chain (rec_Length m) sizeof_ACPI_TABLE_DMAR recs unit)
    (hnz : ∀ r ∈ recs, 0 < rec_Length m r)
    (hsubs : ∀ r ∈ recs, on_segment m unit r = true →
      Chain (scope_Length m) (r + 16) (subs r) (r + rec_Length m r) ∧
      (∀ o ∈ subs r, 0 < scope_Length m o) ∧ (subs r).length < fuel)
    (hfuel : recs.length < fuel) :
    whole_count_loop m fuel unit unit fuel sizeof_ACPI_TABLE_DMAR 0 =
      .ret (.finished (((recs.filter (on_segment m unit)).map
        (fun r => counted m (subs r))).sum)) ∧
    (env.malloc_ok (env.sizeof_desc + env.sizeof_scope *
        ((recs.filter (on_segment m unit)).map (fun r => counted m (subs r))).sum) = false →
      create_whole_segment_iommu_desc env m fuel unit = .ret (.error MX_ERR_NO_MEMORY)) ∧
    (∀ d len, create_whole_segment_iommu_desc env m fuel unit = .ret (.ok d len) →
      len = env.sizeof_desc + env.sizeof_scope *
        ((recs.filter (on_segment m unit)).map (fun r => counted m (subs r))).sum) := by
  have hv := chain_visits (rec_Length m) recs _ _ hrecs hnz
  have hloop := whole_count_loop_sum m fuel unit unit subs recs _ _ fuel 0 hv hfuel
    (fun r hr hon => ⟨_, chain_visits (scope_Length m) (subs r) _ _ (hsubs r hr hon).1
      (hsubs r hr hon).2.1, (hsubs r hr hon).2.2⟩)
  rw [Nat.zero_add] at hloop
  have hflag1 : ¬ (unit_Flags m unit &&& ACPI_DMAR_INCLUDE_ALL = 0) := hflag
  refine ⟨hloop, ?_, ?_⟩
  · intro hm
    simp [create_whole_segment_iommu_desc, hflag1, hloop, hm]
  · intro d len h
    unfold create_whole_segment_iommu_desc at h
    simp only [hflag1, if_false, hloop] at h
    split at h
    · simp at h
    · split at h
      · simp at h
      · simp at h
      · simp at h
      · simp only [Run.ret.injEq, builder_result.ok.injEq] at h
        exact h.2.symm

/-- Witness for C18: the INCLUDE_ALL unit of `table_whole_two`, preceded by one
unit of its segment with one ENDPOINT. -/
theorem create_whole_segment_capacity_witness :
    Chain (rec_Length table_whole_two) sizeof_ACPI_TABLE_DMAR [48] 72 ∧
    whole_count_loop table_whole_two 3 72 72 3 sizeof_ACPI_TABLE_DMAR 0 =
      .ret (.finished ((([48].filter (on_segment table_whole_two 72)).map
        (fun r => counted table_whole_two ((fun _ => [64]) r))).sum)) ∧
    (([48].filter (on_segment table_whole_two 72)).map
        (fun r => counted table_whole_two ((fun _ => [64]) r))).sum = 1 :=
  ⟨by decide,
    (create_whole_segment_capacity env_ok table_whole_two 72 [48] (fun _ => [64]) 3 (by decide)
      (by decide) (by decide) (by decide) (by decide)).1,
    by decide⟩

/-- Positions reached from the position after `s` are reached from `s`. -/
theorem reach_of_next (len : Nat → Nat) (stop s : Nat) (hs : s < stop) :
    ∀ a, Reach len stop (s + len s) a → Reach len stop s a := by
  intro a h
  induction h with
  | start => exact Reach.step Reach.start hs
  | step _ hlt ih => exact Reach.step ih hlt

/-- When every position a loop reaches below its bound holds a record of
nonzero length, the loop makes a finite run of at most `stop - s` steps. -/
theorem visits_of_reach (len : Nat → Nat) (stop : Nat) :
    ∀ (n s : Nat), stop - s ≤ n →
    (∀ a, Reach len stop s a → a < stop → 0 < len a) →
    ∃ offs f, Visits len stop s offs f ∧ offs.length ≤ stop - s
  | 0, s, hn, _ => ⟨[], s, ⟨rfl, by omega⟩, by simp⟩
  | n + 1, s, hn, hnz => by
    by_cases hs : s < stop
    · have hpos : 0 < len s := hnz s Reach.start hs
      obtain ⟨offs, f, hv, hl⟩ := visits_of_reach len stop n (s + len s) (by omega)
        (fun a ha => hnz a (reach_of_next len stop s hs a ha))
      exact ⟨s :: offs, f, ⟨rfl, hs, hv⟩, by simp only [List.length_cons]; omega⟩
    · exact ⟨[], s, ⟨rfl, by omega⟩, by simp⟩

/-- In a finite run, the position after a visited record is the next visited
record or the position the loop is left at. -/
theorem visits_next (len : Nat → Nat) (stop : Nat) : ∀ (offs : List Nat) (s f a : Nat),
    Visits len stop s offs f → a ∈ offs → a + len a ∈ offs ∨ a + len a = f
  | [], _, _, _, _, ha => by simp at ha
  | o :: os, s, f, a, h, ha => by
    obtain ⟨h1, _, h3⟩ := h
    subst h1
    rcases List.mem_cons.mp ha with h4 | h4
    · subst h4
      cases os with
      | nil => exact Or.inr h3.1
      | cons x xs => exact Or.inl (by simp [h3.1])
    · rcases visits_next len stop os _ f a h3 h4 with h5 | h5
      · exact Or.inl (by simp [h5])
      · exact Or.inr h5

/-- The positions a loop reaches are the records of its finite run and the
position it is left at. -/
theorem reach_mem_visits (len : Nat → Nat) (stop : Nat) (offs : List Nat) (s f : Nat)
    (hv : Visits len stop s offs f) : ∀ a, Reach len stop s a → a ∈ offs ∨ a = f := by
  intro a h
  induction h with
  | start =>
    cases offs with
    | nil => exact Or.inr hv.1
    | cons o os => exact Or.inl (by simp [hv.1])
  | step _ hlt ih =>
    rcases ih with h1 | h1
    · exact visits_next len stop offs s f _ hv h1
    · have := visits_stop_le len stop offs s f hv
      omega

/-- Along a finite walk, with more steps allowed than the walk has records, the
record loop of `find_iommus` can only run out of fuel inside a builder call. -/
theorem find_loop_timeout (env : Env) (m : Mem) (fuel e : Nat) :
    ∀ (offs : List Nat) (s f k : Nat) (tr : List Event),
    Visits (rec_Length m) e s offs f → offs.length < k →
    find_loop env m fuel e k s tr = .timeout →
    ∃ rec ∈ offs, rec_Type m rec = ACPI_DMAR_TYPE_HARDWARE_UNIT ∧
      build_desc env m fuel rec = .timeout
  | [], s, f, k, tr, h, hk, ht => by
    obtain ⟨_, h2⟩ := h
    cases k with
    | zero => simp at hk
    | succ k =>
      have : ¬ s < e := by omega
      rw [find_loop, if_neg this] at ht
      simp at ht
  | o :: os, s, f, k, tr, h, hk, ht => by
    obtain ⟨h1, h2, h3⟩ := h
    subst h1
    cases k with
    | zero => simp at hk
    | succ k =>
      have hk1 : os.length < k := by simpa using hk
      rw [find_loop, if_pos h2] at ht
      by_cases hty : rec_Type m o = ACPI_DMAR_TYPE_HARDWARE_UNIT
      · rw [if_pos hty] at ht
        cases hb : build_desc env m fuel o with
        | timeout => exact ⟨o, by simp, hty, hb⟩
        | abort => simp [hb] at ht
        | ret r =>
          cases r with
          | error st => simp [hb] at ht
          | ok d len =>
            simp only [hb] at ht
            split at ht
            · simp at ht
            · obtain ⟨rec, hr, hr2⟩ := find_loop_timeout env m fuel e os _ f k _ h3 hk1 ht
              exact ⟨rec, by simp [hr], hr2⟩
      · rw [if_neg hty] at ht
        obtain ⟨rec, hr, hr2⟩ := find_loop_timeout env m fuel e os _ f k _ h3 hk1 ht
        exact ⟨rec, by simp [hr], hr2⟩

/-- Along a finite walk, with more steps allowed than the walk has records, the
first record loop of the whole-segment builder can only run out of fuel inside
a call of `append_scopes`. -/
theorem whole_count_loop_timeout (m : Mem) (fuel unit e : Nat) :
    ∀ (offs : List Nat) (s f k n : Nat),
    Visits (rec_Length m) e s offs f → offs.length < k →
    whole_count_loop m fuel unit e k s n = .timeout →
    ∃ rec ∈ offs, append_scopes m fuel rec none 0 true = .timeout
  | [], s, f, k, n, h, hk, ht => by
    obtain ⟨_, h2⟩ := h
    cases k with
    | zero => simp at hk
    | succ k =>
      have : ¬ s < e := by omega
      rw [whole_count_loop, if_neg this] at ht
      simp at ht
  | o :: os, s, f, k, n, h, hk, ht => by
    obtain ⟨h1, h2, h3⟩ := h
    subst h1
    cases k with
    | zero => simp at hk
    | succ k =>
      have hk1 : os.length < k := by simpa using hk
      have hrec : ∀ n1, whole_count_loop m fuel unit e k (o + rec_Length m o) n1 = .timeout →
          ∃ rec ∈ o :: os, append_scopes m fuel rec none 0 true = .timeout := by
        intro n1 h4
        obtain ⟨rec, hr, hr2⟩ := whole_count_loop_timeout m fuel unit e os _ f k n1 h3 hk1 h4
        exact ⟨rec, by simp [hr], hr2⟩
      rw [whole_count_loop, if_pos h2] at ht
      split at ht
      · split at ht
        · exact hrec _ ht
        · split at ht
          · rename_i ha
            exact ⟨o, by simp, ha⟩
          · simp at ht
          · split at ht
            · simp at ht
            · exact hrec _ ht
      · exact hrec _ ht

/-- Along a finite walk, with more steps allowed than the walk has records, the
second record loop of the whole-segment builder can only run out of fuel
inside a call of `append_scopes`. -/
theorem whole_fill_loop_timeout (m : Mem) (fuel unit e num : Nat) :
    ∀ (offs : List Nat) (s f k : Nat) (desc : mx_iommu_desc_intel_t),
    Visits (rec_Length m) e s offs f → offs.length < k →
    whole_fill_loop m fuel unit e num k s desc = .timeout →
    ∃ d, append_scopes m fuel unit (some d) num false = .timeout
  | [], s, f, k, desc, h, hk, ht => by
    obtain ⟨_, h2⟩ := h
    cases k with
    | zero => simp at hk
    | succ k =>
      have : ¬ s < e := by omega
      rw [whole_fill_loop, if_neg this] at ht
      simp at ht
  | o :: os, s, f, k, desc, h, hk, ht => by
    obtain ⟨h1, h2, h3⟩ := h
    subst h1
    cases k with
    | zero => simp at hk
    | succ k =>
      have hk1 : os.length < k := by simpa using hk
      have hrec : ∀ d1, whole_fill_loop m fuel unit e num k (o + rec_Length m o) d1 = .timeout →
          ∃ d, append_scopes m fuel unit (some d) num false = .timeout :=
        fun d1 h4 => whole_fill_loop_timeout m fuel unit e num os _ f k d1 h3 hk1 h4
      rw [whole_fill_loop, if_pos h2] at ht
      split at ht
      · split at ht
        · exact hrec _ ht
        · split at ht
          · rename_i ha
            exact ⟨desc, ha⟩
          · simp at ht
          · split at ht
            · simp at ht
            · exact hrec _ ht
      · exact hrec _ ht

/-- On a record of length zero that is not a hardware unit the record loop of
`find_iommus` stays for ever. -/
theorem find_loop_zero_length (env : Env) (m : Mem) (fuel e a : Nat) (tr : List Event)
    (ha : a < e) (hty : rec_Type m a ≠ ACPI_DMAR_TYPE_HARDWARE_UNIT)
    (hz : rec_Length m a = 0) : ∀ k, find_loop env m fuel e k a tr = .timeout
  | 0 => rfl
  | k + 1 => by
    rw [find_loop, if_pos ha, if_neg hty, hz, Nat.add_zero]
    exact find_loop_zero_length env m fuel e a tr ha hty hz k

/-- A loop with a smaller bound reaches no position the loop with a larger
bound does not reach. -/
theorem reach_mono (len : Nat → Nat) (stop1 stop2 s : Nat) (h12 : stop1 ≤ stop2) :
    ∀ a, Reach len stop1 s a → Reach len stop2 s a := by
  intro a h
  induction h with
  | start => exact Reach.start
  | step _ hlt ih => exact Reach.step ih (by omega)

/-- C20: when every record the walk of `find_iommus` reaches below
`Header.Length` has a nonzero `Length`, the record loop of `find_iommus` makes
a finite run of at most `Header.Length - 48` steps, and so does each of the two
record loops of `create_whole_segment_iommu_desc` for a unit inside the table:
given that many steps (and one more test of the loop condition), each loop can
only run out of fuel inside a builder or `append_scopes` call it makes.  The
condition is needed: on a record of length zero (not a hardware unit) the loop
of `find_iommus` stays for ever. -/
theorem record_walks_terminate (env : Env) (m : Mem) (fuel unit : Nat)
    (hnz : ∀ a, Reach (rec_Length m) (Header_Length m) sizeof_ACPI_TABLE_DMAR a →
      a < Header_Length m → 0 < rec_Length m a)
    (hunit : unit ≤ Header_Length m) :
    (∃ offs f, Visits (rec_Length m) (Header_Length m) sizeof_ACPI_TABLE_DMAR offs f ∧
      offs.length ≤ Header_Length m - sizeof_ACPI_TABLE_DMAR ∧
      ∀ tr, find_loop env m fuel (Header_Length m)
          (Header_Length m - sizeof_ACPI_TABLE_DMAR + 1) sizeof_ACPI_TABLE_DMAR tr = .timeout →
        ∃ rec ∈ offs, rec_Type m rec = ACPI_DMAR_TYPE_HARDWARE_UNIT ∧
          build_desc env m fuel rec = .timeout) ∧
    (∃ offs f, Visits (rec_Length m) unit sizeof_ACPI_TABLE_DMAR offs f ∧
      offs.length ≤ Header_Length m - sizeof_ACPI_TABLE_DMAR ∧
      (∀ n, whole_count_loop m fuel unit unit
          (Header_Length m - sizeof_ACPI_TABLE_DMAR + 1) sizeof_ACPI_TABLE_DMAR n = .timeout →
        ∃ rec ∈ offs, append_scopes m fuel rec none 0 true = .timeout) ∧
      (∀ n d, whole_fill_loop m fuel unit unit n
          (Header_Length m - sizeof_ACPI_TABLE_DMAR + 1) sizeof_ACPI_TABLE_DMAR d = .timeout →
        ∃ d1, append_scopes m fuel unit (some d1) n false = .timeout)) ∧
    (∀ a tr, a < Header_Length m → rec_Type m a ≠ ACPI_DMAR_TYPE_HARDWARE_UNIT →
      rec_Length m a = 0 → ∀ k, find_loop env m fuel (Header_Length m) k a tr = .timeout) := by
  refine ⟨?_, ?_, ?_⟩
  · obtain ⟨offs, f, hv, hl⟩ := visits_of_reach (rec_Length m) (Header_Length m) _
      sizeof_ACPI_TABLE_DMAR (Nat.le_refl _) hnz
    exact ⟨offs, f, hv, hl, fun tr ht =>
      find_loop_timeout env m fuel _ offs _ f _ tr hv (by omega) ht⟩
  · obtain ⟨offs, f, hv, hl⟩ := visits_of_reach (rec_Length m) unit _
      sizeof_ACPI_TABLE_DMAR (Nat.le_refl _)
      (fun a ha hlt => hnz a (reach_mono _ _ _ _ hunit a ha) (by omega))
    exact ⟨offs, f, hv, by omega,
      fun n ht => whole_count_loop_timeout m fuel unit unit offs _ f _ n hv (by omega) ht,
      fun n d ht => whole_fill_loop_timeout m fuel unit unit n offs _ f _ d hv (by omega) ht⟩
  · intro a tr ha hty hz k
    exact find_loop_zero_length env m fuel _ a tr ha hty hz k

/-- Witness for C20: the two records of `table_whole`, and its second unit. -/
theorem record_walks_terminate_witness :
    (∀ a, Reach (rec_Length table_whole) (Header_Length table_whole) sizeof_ACPI_TABLE_DMAR a →
      a < Header_Length table_whole → 0 < rec_Length table_whole a) ∧
    72 ≤ Header_Length table_whole ∧
    ∃ offs f, Visits (rec_Length table_whole) (Header_Length table_whole)
        sizeof_ACPI_TABLE_DMAR offs f ∧
      offs.length ≤ Header_Length table_whole - sizeof_ACPI_TABLE_DMAR ∧
      ∀ tr, find_loop env_ok table_whole 3 (Header_Length table_whole)
          (Header_Length table_whole - sizeof_ACPI_TABLE_DMAR + 1) sizeof_ACPI_TABLE_DMAR tr =
            .timeout →
        ∃ rec ∈ offs, rec_Type table_whole rec = ACPI_DMAR_TYPE_HARDWARE_UNIT ∧
          build_desc env_ok table_whole 3 rec = .timeout :=
  have hnz : ∀ a, Reach (rec_Length table_whole) (Header_Length table_whole)
      sizeof_ACPI_TABLE_DMAR a → a < Header_Length table_whole → 0 < rec_Length table_whole a := by
    intro a ha hlt
    have hv : Visits (rec_Length table_whole) (Header_Length table_whole)
        sizeof_ACPI_TABLE_DMAR [48, 72] 88 := by decide
    have hL : Header_Length table_whole = 88 := by decide
    rcases reach_mem_visits _ _ _ _ _ hv a ha with h1 | h1
    · simp only [List.mem_cons, List.mem_singleton, List.not_mem_nil, or_false] at h1
      rcases h1 with h2 | h2 <;> subst h2 <;> decide
    · omega
  ⟨hnz, by decide, (record_walks_terminate env_ok table_whole 3 72 hnz (by decide)).1⟩

/-- The byte stored for a hop keeps the low five bits of the top byte of the
hop value and its low three bits. -/
theorem dev_func_byte_bits (v : Nat) :
    dev_func_byte v >>> 3 = (v >>> 8) % 32 ∧ dev_func_byte v &&& 7 = v &&& 7 := by
  have h7 : ∀ x : Nat, x &&& 7 = x % 8 := fun x => Nat.and_pow_two_sub_one_eq_mod x 3
  have hor : ∀ a b : Nat, b < 8 → a <<< 3 ||| b = 8 * a + b := by
    intro a b hb
    rw [Nat.shiftLeft_eq, Nat.mul_comm]
    exact (Nat.mul_add_lt_is_or (i := 3) hb a).symm
  unfold dev_func_byte
  simp only [h7, Nat.shiftRight_eq_div_pow]
  rw [hor _ _ (by omega)]
  constructor <;> omega

/-- The hop count stored by `write_scope` for a sub-record of length at least 6. -/
theorem hop_bound_of_le (m : Mem) (scope : Nat) (hL : 6 ≤ scope_Length m scope) :
    hop_bound m scope = (((scope_Length m scope - 6) / 2 : Nat) : Int) := by
  unfold hop_bound
  have h1 : ((scope_Length m scope : Int) - 6) = ((scope_Length m scope - 6 : Nat) : Int) := by
    omega
  rw [h1]
  exact (Int.ofNat_tdiv _ _).symm

/-- C16 (counterexample): the ENDPOINT sub-record of `table_dev32` has length 8
and one hop of value `0x2000`, whose top 8 bits are 32.  The byte the fill pass
stores for it is 0, so the byte shifted right by 3 is 0 and not 32. -/
theorem dev_func_drops_high_device_bits :
    6 ≤ scope_Length table_dev32 64 ∧
    rd16 table_dev32 (64 + 6 + 2 * 0) >>> 8 = 32 ∧
    create_non_whole_segment_iommu_desc env_ok table_dev32 2 48 =
      .ret (.ok (desc_of false [endpoint_entry 1 0]) 28) ∧
    (endpoint_entry 1 0).dev_func[0]? = some 0 ∧
    (0 : Nat) >>> 3 ≠ rd16 table_dev32 (64 + 6 + 2 * 0) >>> 8 := by
  decide

/-- C16 (amended): for a sub-record of declared length `L >= 6`, the entry the
fill pass stores has `num_hops = (L - 6) / 2`, and for each `i < num_hops`, with
`v` the little-endian 16-bit value at byte offset `6 + 2 * i` of the
sub-record, the stored byte `dev_func[i]` satisfies
`dev_func[i] >> 3 = (v >> 8) mod 32` and `dev_func[i] & 0x7 = v & 0x7`: the
device number is kept whenever it is below 32. -/
theorem write_scope_hops (m : Mem) (scope ty : Nat) (old : mx_iommu_desc_intel_scope_t)
    (hL : 6 ≤ scope_Length m scope) :
    (write_scope m scope ty old).num_hops = (scope_Length m scope - 6) / 2 ∧
    ∀ i, i < (scope_Length m scope - 6) / 2 →
      ∃ b, (write_scope m scope ty old).dev_func[i]? = some b ∧
        b >>> 3 = (rd16 m (scope + 6 + 2 * i) >>> 8) % 32 ∧
        b &&& 7 = rd16 m (scope + 6 + 2 * i) &&& 7 ∧
        (rd16 m (scope + 6 + 2 * i) >>> 8 < 32 → b >>> 3 = rd16 m (scope + 6 + 2 * i) >>> 8) := by
  have hb := hop_bound_of_le m scope hL
  have hlt : scope_Length m scope < 256 := Nat.mod_lt _ (by decide)
  constructor
  · simp only [write_scope, hb]
    omega
  · intro i hi
    have hn : (hop_bound m scope).toNat = (scope_Length m scope - 6) / 2 := by
      rw [hb]
      exact Int.toNat_ofNat _
    have hlen : (hop_bytes m scope).length = (scope_Length m scope - 6) / 2 := by
      unfold hop_bytes
      rw [hn, List.length_map, List.length_range]
    have hget : (write_scope m scope ty old).dev_func[i]? =
        some (dev_func_byte (rd16 m (scope + 6 + 2 * i))) := by
      simp only [write_scope]
      rw [List.getElem?_append_left (by omega)]
      unfold hop_bytes
      rw [hn, List.getElem?_map, List.getElem?_range hi]
      rfl
    have hbits := dev_func_byte_bits (rd16 m (scope + 6 + 2 * i))
    refine ⟨_, hget, hbits.1, hbits.2, ?_⟩
    intro h32
    rw [hbits.1]
    exact Nat.mod_eq_of_lt h32

/-- Witness for the amended C16: the ENDPOINT sub-record of `table_dev32`. -/
theorem write_scope_hops_witness :
    6 ≤ scope_Length table_dev32 64 ∧
    (write_scope table_dev32 64 MX_IOMMU_INTEL_SCOPE_ENDPOINT uninit_scope).num_hops =
      (scope_Length table_dev32 64 - 6) / 2 :=
  ⟨by decide,
    (write_scope_hops table_dev32 64 MX_IOMMU_INTEL_SCOPE_ENDPOINT uninit_scope (by decide)).1⟩

/-- The first `idx + 1` entries after an update of entry `idx`. -/
theorem take_succ_modify {α : Type} (g : α → α) : ∀ (l : List α) (idx : Nat)
    (h : idx < l.length), (l.modify g idx).take (idx + 1) = l.take idx ++ [g (l.get ⟨idx, h⟩)]
  | [], _, h => by simp at h
  | a :: t, 0, _ => by simp [List.modify]
  | a :: t, n + 1, h => by
    have h1 : n < t.length := by simpa using h
    simp [take_succ_modify g t n h1]

/-- A successful run of the fill loop along a finite walk with room for its
counted sub-records: the loop ends with `scope_index` advanced by their number,
the entries before `scope_index` and after the new ones as they were, and in
between one compiled entry per counted sub-record, in order. -/
theorem fill_loop_result (m : Mem) (stop max_scopes : Nat)
    (hmax : max_scopes < 18446744073709551616) :
    ∀ (offs : List Nat) (s f fuel idx : Nat) (d : mx_iommu_desc_intel_t)
      (r : Nat × mx_iommu_desc_intel_t),
    Visits (scope_Length m) stop s offs f →
    idx + counted m offs ≤ max_scopes → max_scopes ≤ d.scopes.length →
    fill_loop m stop max_scopes fuel s idx d = some r →
    r.1 = idx + counted m offs ∧
    r.2 = with_compiled m d idx offs
  | [], s, f, fuel, idx, d, r, hv, _, _, hr => by
    obtain ⟨_, h2⟩ := hv
    cases fuel with
    | zero => simp [fill_loop] at hr
    | succ k =>
      have hn : ¬ (s < stop ∧ idx < max_scopes) := by omega
      rw [fill_loop, if_neg hn] at hr
      simp only [Option.some.injEq] at hr
      subst hr
      simp [with_compiled, counted]
  | o :: os, s, f, fuel, idx, d, r, hv, hroom, hcap, hr => by
    obtain ⟨h1, h2, h3⟩ := hv
    subst h1
    cases fuel with
    | zero => simp [fill_loop] at hr
    | succ k =>
      rw [fill_loop] at hr
      by_cases hi : idx < max_scopes
      · rw [if_pos ⟨h2, hi⟩] at hr
        have hwrap : (idx + 1) % 18446744073709551616 = idx + 1 := by omega
        have hstep : ∀ ty, compiled_type m o = ty → is_counted m o = true →
            fill_loop m stop max_scopes k (o + scope_Length m o) (idx + 1)
              (modify_scope d idx (write_scope m o ty)) = some r →
            r.1 = idx + counted m (o :: os) ∧
            r.2 = with_compiled m d idx (o :: os) := by
          intro ty hty hc hr1
          have hcnt : counted m (o :: os) = counted m os + 1 := by
            simp [counted, List.filter_cons, hc]
          have hlt : idx < d.scopes.length := by omega
          obtain ⟨e1, e2⟩ := fill_loop_result m stop max_scopes hmax os _ f k (idx + 1)
            (modify_scope d idx (write_scope m o ty)) r h3 (by omega)
            (by simpa [modify_scope] using hcap) hr1
          refine ⟨by omega, ?_⟩
          rw [e2]
          simp only [with_compiled, modify_scope, List.filter_cons, hc, if_true, hcnt]
          have ht := take_succ_modify (write_scope m o ty) d.scopes idx hlt
          have hd : (List.modify (write_scope m o ty) idx d.scopes).drop (idx + 1) =
              d.scopes.drop (idx + 1) :=
            List.drop_modify_of_lt _ _ _ _ (by omega)
          have hd2 : (List.modify (write_scope m o ty) idx d.scopes).drop
              (idx + 1 + counted m os) = d.scopes.drop (idx + 1 + counted m os) :=
            List.drop_modify_of_lt _ _ _ _ (by omega)
          have hdrop : d.scopes.drop idx = d.scopes.get ⟨idx, hlt⟩ :: d.scopes.drop (idx + 1) :=
            List.drop_eq_getElem_cons hlt
          have harith : idx + (counted m os + 1) = idx + 1 + counted m os := by omega
          rw [ht, hd, hd2, hdrop, harith]
          simp only [List.zipWith_cons_cons, List.append_assoc, List.cons_append,
            List.nil_append, compile_scope, hty]
        by_cases he : scope_EntryType m o = ACPI_DMAR_SCOPE_TYPE_ENDPOINT
        · rw [if_pos he, hwrap] at hr
          exact hstep _ (by simp [compiled_type, he]) (by simp [is_counted, he]) hr
        · rw [if_neg he] at hr
          by_cases hb : scope_EntryType m o = ACPI_DMAR_SCOPE_TYPE_BRIDGE
          · rw [if_pos hb, hwrap] at hr
            exact hstep _ (by simp [compiled_type, he]) (by simp [is_counted, hb]) hr
          · rw [if_neg hb] at hr
            have hidx : ((idx + 18446744073709551616 - 1) % 18446744073709551616 + 1)
                % 18446744073709551616 = idx := by omega
            rw [hidx, fill_loop_stuck m stop max_scopes o idx d h2 hi (by omega) he hb k] at hr
            simp at hr
      · have hn : ¬ (o < stop ∧ idx < max_scopes) := by omega
        rw [if_neg hn] at hr
        simp only [Option.some.injEq] at hr
        subst hr
        have hc0 : counted m (o :: os) = 0 := by omega
        have hnil : (o :: os).filter (is_counted m) = [] := by
          unfold counted at hc0
          exact List.length_eq_zero.mp hc0
        simp [with_compiled, hc0, hnil]

/-- When the counting loop returns along a finite walk, it returns the count of
the walk. -/
theorem count_loop_some (m : Mem) (stop : Nat) : ∀ (offs : List Nat) (s f fuel n r : Nat),
    Visits (scope_Length m) stop s offs f → count_loop m stop fuel s n = some r →
    r = n + counted m offs
  | offs, s, f, fuel, n, r, hv, hr => by
    by_cases hf : offs.length < fuel
    · rw [count_loop_visits m stop offs s f fuel n hv hf] at hr
      exact (Option.some.inj hr).symm
    · exfalso
      induction offs generalizing s fuel n with
      | nil =>
        cases fuel with
        | zero => simp [count_loop] at hr
        | succ k => simp at hf
      | cons o os ih =>
        obtain ⟨h1, h2, h3⟩ := hv
        subst h1
        cases fuel with
        | zero => simp [count_loop] at hr
        | succ k =>
          rw [count_loop, if_pos h2] at hr
          exact ih _ k _ h3 hr (by simpa using hf)

/-- A unit with only ENDPOINT and BRIDGE sub-records never blocks the fill
loop. -/
theorem fill_unblocked_of_all_counted (m : Mem) (offs : List Nat) (k max_scopes : Nat)
    (hall : ∀ o ∈ offs, is_counted m o = true) : fill_unblocked m offs k max_scopes := by
  intro pre o post he ho
  have hm : o ∈ offs := by rw [he]; simp
  rw [hall o hm] at ho
  simp at ho

/-- Along a finite walk on which it is not blocked, with room for the counted
sub-records and more fuel than sub-records, the fill loop returns. -/
theorem fill_loop_returns (m : Mem) (stop max_scopes : Nat)
    (hmax : max_scopes < 18446744073709551616) :
    ∀ (offs : List Nat) (s f fuel idx : Nat) (d : mx_iommu_desc_intel_t),
    Visits (scope_Length m) stop s offs f → offs.length < fuel →
    idx + counted m offs ≤ max_scopes → fill_unblocked m offs idx max_scopes →
    ∃ r, fill_loop m stop max_scopes fuel s idx d = some r
  | [], s, f, fuel, idx, d, hv, hf, _, _ => by
    obtain ⟨_, h2⟩ := hv
    cases fuel with
    | zero => simp at hf
    | succ k =>
      have hn : ¬ (s < stop ∧ idx < max_scopes) := by omega
      exact ⟨_, by rw [fill_loop, if_neg hn]⟩
  | o :: os, s, f, fuel, idx, d, hv, hf, hroom, hfree => by
    obtain ⟨h1, h2, h3⟩ := hv
    subst h1
    cases fuel with
    | zero => simp at hf
    | succ k =>
      have hk : os.length < k := by simpa using hf
      by_cases hi : idx < max_scopes
      · have hc : is_counted m o = true := by
          cases hco : is_counted m o with
          | true => rfl
          | false =>
            have := hfree [] o os rfl hco
            simp [counted] at this
            omega
        have hcnt : counted m (o :: os) = counted m os + 1 := by
          simp [counted, List.filter_cons, hc]
        have hwrap : (idx + 1) % 18446744073709551616 = idx + 1 := by omega
        have hfree1 : fill_unblocked m os (idx + 1) max_scopes := by
          intro pre x post he hx
          have h4 := hfree (o :: pre) x post (by rw [he]; rfl) hx
          have h5 : counted m (o :: pre) = counted m pre + 1 := by
            simp [counted, List.filter_cons, hc]
          omega
        rw [fill_loop, if_pos ⟨h2, hi⟩]
        by_cases he : scope_EntryType m o = ACPI_DMAR_SCOPE_TYPE_ENDPOINT
        · rw [if_pos he, hwrap]
          exact fill_loop_returns m stop max_scopes hmax os _ f k (idx + 1) _ h3 hk
            (by omega) hfree1
        · have hb : scope_EntryType m o = ACPI_DMAR_SCOPE_TYPE_BRIDGE := by
            simpa [is_counted, he] using hc
          rw [if_neg he, if_pos hb, hwrap]
          exact fill_loop_returns m stop max_scopes hmax os _ f k (idx + 1) _ h3 hk
            (by omega) hfree1
      · have hn : ¬ (o < stop ∧ idx < max_scopes) := by omega
        exact ⟨_, by rw [fill_loop, if_neg hn]⟩

/-- When the fill loop returns along a finite walk, it was not blocked. -/
theorem fill_loop_some_unblocked (m : Mem) (stop max_scopes : Nat)
    (hmax : max_scopes < 18446744073709551616) :
    ∀ (offs : List Nat) (s f fuel idx : Nat) (d : mx_iommu_desc_intel_t)
      (r : Nat × mx_iommu_desc_intel_t),
    Visits (scope_Length m) stop s offs f →
    fill_loop m stop max_scopes fuel s idx d = some r → fill_unblocked m offs idx max_scopes
  | [], _, _, _, _, _, _, _, _ => by
    intro pre o post he _
    simp at he
  | o :: os, s, f, fuel, idx, d, r, hv, hr => by
    obtain ⟨h1, h2, h3⟩ := hv
    subst h1
    cases fuel with
    | zero => simp [fill_loop] at hr
    | succ k =>
      rw [fill_loop] at hr
      by_cases hi : idx < max_scopes
      · rw [if_pos ⟨h2, hi⟩] at hr
        have hwrap : (idx + 1) % 18446744073709551616 = idx + 1 := by omega
        have hstep : is_counted m o = true → fill_unblocked m os (idx + 1) max_scopes →
            fill_unblocked m (o :: os) idx max_scopes := by
          intro hc hrest pre x post he hx
          cases pre with
          | nil =>
            simp only [List.nil_append, List.cons.injEq] at he
            rw [← he.1, hc] at hx
            simp at hx
          | cons p pre1 =>
            simp only [List.cons_append, List.cons.injEq] at he
            have h4 := hrest pre1 x post he.2 hx
            have h5 : counted m (p :: pre1) = counted m pre1 + 1 := by
              rw [← he.1]
              simp [counted, List.filter_cons, hc]
            omega
        by_cases he : scope_EntryType m o = ACPI_DMAR_SCOPE_TYPE_ENDPOINT
        · rw [if_pos he, hwrap] at hr
          exact hstep (by simp [is_counted, he])
            (fill_loop_some_unblocked m stop max_scopes hmax os _ f k (idx + 1) _ r h3 hr)
        · rw [if_neg he] at hr
          by_cases hb : scope_EntryType m o = ACPI_DMAR_SCOPE_TYPE_BRIDGE
          · rw [if_pos hb, hwrap] at hr
            exact hstep (by simp [is_counted, hb])
              (fill_loop_some_unblocked m stop max_scopes hmax os _ f k (idx + 1) _ r h3 hr)
          · rw [if_neg hb] at hr
            have hidx : ((idx + 18446744073709551616 - 1) % 18446744073709551616 + 1)
                % 18446744073709551616 = idx := by omega
            rw [hidx, fill_loop_stuck m stop max_scopes o idx d h2 hi (by omega) he hb k] at hr
            simp at hr
      · intro pre x post _ _
        omega

/-- C17: for a hardware unit whose sub-records (at `offs`) have nonzero lengths
and fill it exactly, with `c` of them ENDPOINT or BRIDGE, and a descriptor `d`
holding `k = d.num_scopes` entries in a storage of at least `max_scopes` slots
with `k + c <= max_scopes` (a capacity the 32-bit `num_scopes` field can
express):
* when all the sub-records are ENDPOINT or BRIDGE (and, more generally, when
  the fill loop is not blocked), a call of `append_scopes` on a descriptor of
  the segment of the unit, with more fuel than sub-records, returns `MX_OK`
  with the descriptor `appended m d offs`;
* every call that returns at all returns `MX_OK` with that descriptor, and
  the fill loop was not blocked;
* `appended m d offs` has `register_base`, `pci_segment` and `whole_segment`
  as in `d`, `num_scopes = k + c`, the entries `0..k-1` and those from `k + c`
  on unchanged, and at `k..k+c-1` the entries compiled from the ENDPOINT and
  BRIDGE sub-records, in sub-record order. -/
theorem append_scopes_fill_appends (m : Mem) (unit : Nat) (offs : List Nat)
    (d : mx_iommu_desc_intel_t) (max_scopes : Nat) (want : Bool)
    (hchain : Chain (scope_Length m) (unit + 16) offs (unit + rec_Length m unit))
    (hnz : ∀ o ∈ offs, 0 < scope_Length m o)
    (hroom : d.num_scopes + counted m offs ≤ max_scopes)
    (hcap : max_scopes ≤ d.scopes.length)
    (hsz : max_scopes < 4294967296) :
    (∀ fuel, unit_Segment m unit = d.pci_segment → offs.length < fuel →
      (∀ o ∈ offs, is_counted m o = true) →
      append_scopes m fuel unit (some d) max_scopes want =
        .ret { status := MX_OK, desc := some (appended m d offs),
               num_scopes_found := if want then some (counted m offs) else none }) ∧
    (∀ fuel, unit_Segment m unit = d.pci_segment → offs.length < fuel →
      fill_unblocked m offs d.num_scopes max_scopes →
      append_scopes m fuel unit (some d) max_scopes want =
        .ret { status := MX_OK, desc := some (appended m d offs),
               num_scopes_found := if want then some (counted m offs) else none }) ∧
    (∀ fuel r, append_scopes m fuel unit (some d) max_scopes want = .ret r →
      r.status = MX_OK ∧ r.desc = some (appended m d offs) ∧
      fill_unblocked m offs d.num_scopes max_scopes) ∧
    (appended m d offs).register_base = d.register_base ∧
    (appended m d offs).pci_segment = d.pci_segment ∧
    (appended m d offs).whole_segment = d.whole_segment ∧
    (appended m d offs).num_scopes = d.num_scopes + counted m offs ∧
    (appended m d offs).scopes.take d.num_scopes = d.scopes.take d.num_scopes ∧
    scope_list (appended m d offs) = scope_list d ++
      List.zipWith (compile_scope m) (offs.filter (is_counted m)) (d.scopes.drop d.num_scopes) ∧
    (List.zipWith (compile_scope m) (offs.filter (is_counted m))
      (d.scopes.drop d.num_scopes)).length = counted m offs ∧
    (appended m d offs).scopes.drop (d.num_scopes + counted m offs) =
      d.scopes.drop (d.num_scopes + counted m offs) := by
  have hv := chain_visits (scope_Length m) offs _ _ hchain hnz
  have hlenz : (List.zipWith (compile_scope m) (offs.filter (is_counted m))
      (d.scopes.drop d.num_scopes)).length = counted m offs := by
    simp only [List.length_zipWith, List.length_drop, counted]
    unfold counted at hroom
    omega
  have hlent : (d.scopes.take d.num_scopes).length = d.num_scopes := by
    rw [List.length_take]; omega
  have hmod : (d.num_scopes + counted m offs) % 4294967296 =
      d.num_scopes + counted m offs := by omega
  have hprod : ∀ fuel, unit_Segment m unit = d.pci_segment → offs.length < fuel →
      fill_unblocked m offs d.num_scopes max_scopes →
      append_scopes m fuel unit (some d) max_scopes want =
        .ret { status := MX_OK, desc := some (appended m d offs),
               num_scopes_found := if want then some (counted m offs) else none } := by
    intro fuel hseg hfuel hfree
    have hfit : ¬ (d.num_scopes + counted m offs > max_scopes) := by omega
    have hc := count_loop_visits m _ offs _ _ fuel 0 hv hfuel
    rw [Nat.zero_add] at hc
    obtain ⟨r, hr⟩ := fill_loop_returns m (unit + rec_Length m unit) max_scopes (by omega)
      offs _ _ fuel d.num_scopes d hv hfuel hroom hfree
    obtain ⟨e1, e2⟩ := fill_loop_result m _ max_scopes (by omega) offs _ _ fuel
      d.num_scopes d r hv hroom hcap hr
    have hr1 : fill_loop m (unit + rec_Length m unit) max_scopes fuel (unit + 16)
        d.num_scopes d = some (d.num_scopes + counted m offs,
          with_compiled m d d.num_scopes offs) := by
      rw [hr, ← e1, ← e2]
    simp only [append_scopes, hc, hseg, ne_eq, not_true_eq_false, if_false, hfit, hr1, hmod]
    rfl
  refine ⟨fun fuel hseg hfuel hall => hprod fuel hseg hfuel
      (fill_unblocked_of_all_counted m offs _ _ hall),
    hprod, ?_, rfl, rfl, rfl, rfl, ?_, ?_, hlenz, ?_⟩
  · intro fuel r hret
    unfold append_scopes at hret
    simp only at hret
    split at hret
    · simp at hret
    · rename_i n hn
      have hn1 := count_loop_some m _ offs _ _ fuel 0 n hv hn
      rw [Nat.zero_add] at hn1
      subst hn1
      split at hret
      · simp at hret
      · split at hret
        · rename_i hbig
          omega
        · split at hret
          · simp at hret
          · rename_i idx d1 hfill
            obtain ⟨e1, e2⟩ := fill_loop_result m _ max_scopes (by omega) offs _ _ fuel
              d.num_scopes d (idx, d1) hv hroom hcap hfill
            have hfree := fill_loop_some_unblocked m _ max_scopes (by omega) offs _ _ fuel
              d.num_scopes d (idx, d1) hv hfill
            simp only at e1 e2
            simp only [Run.ret.injEq] at hret
            subst hret
            subst e1 e2
            refine ⟨rfl, ?_, hfree⟩
            simp only [hmod]
            rfl
  · simp only [appended, with_compiled, List.append_assoc]
    rw [List.take_append_of_le_length (by omega), List.take_of_length_le (by omega)]
  · simp only [scope_list, appended, with_compiled]
    rw [List.take_append_of_le_length (by simp only [List.length_append]; omega)]
    rw [List.take_of_length_le (by simp only [List.length_append]; omega)]
  · simp only [appended, with_compiled]
    rw [List.drop_append_of_le_length (by simp only [List.length_append]; omega)]
    rw [List.drop_of_length_le (by simp only [List.length_append]; omega), List.nil_append]

/-- Witness for C17: the one ENDPOINT of `table_endpoint` appended to a
descriptor that already holds one entry, on bus 7, in the first of its two
slots: the call returns `MX_OK`, the first entry is as it was and the new one
is in the second slot, with `num_scopes` 2. -/
theorem append_scopes_fill_appends_witness :
    Chain (scope_Length table_endpoint) (48 + 16) [64] (48 + rec_Length table_endpoint 48) ∧
    (∀ o ∈ [64], 0 < scope_Length table_endpoint o) ∧
    desc_one.num_scopes + counted table_endpoint [64] ≤ 2 ∧
    2 ≤ desc_one.scopes.length ∧
    unit_Segment table_endpoint 48 = desc_one.pci_segment ∧
    (∀ o ∈ [64], is_counted table_endpoint o = true) ∧
    desc_one.num_scopes = 1 ∧
    appended table_endpoint desc_one [64] =
      desc_of false [endpoint_entry 7 8, endpoint_entry 1 16] ∧
    append_scopes table_endpoint 2 48 (some desc_one) 2 false =
      .ret { status := MX_OK, desc := some (appended table_endpoint desc_one [64]),
             num_scopes_found := if false then some (counted table_endpoint [64]) else none } :=
  ⟨by decide, by decide, by decide, by decide, by decide, by decide, by decide, by decide,
    (append_scopes_fill_appends table_endpoint 48 [64] desc_one 2 false
      (by decide) (by decide) (by decide) (by decide) (by decide)).1 2
        (by decide) (by decide) (by decide)⟩

/-- No read, nothing to bound. -/
theorem allBounded_nil (B : Nat) : AllBounded B [] := by
  intro r hr
  simp at hr

/-- Reads put together obey the bound when each part does. -/
theorem allBounded_append (B : Nat) (l1 l2 : List Read) (h1 : AllBounded B l1)
    (h2 : AllBounded B l2) : AllBounded B (l1 ++ l2) := by
  intro r hr
  rcases List.mem_append.mp hr with h | h
  · exact h1 r h
  · exact h2 r h

/-- The reads of a field have its kind and lie within it. -/
theorem mem_field_reads (kind : ReadKind) (a n : Nat) (r : Read)
    (hr : r ∈ field_reads kind a n) : r.kind = kind ∧ r.offset < a + n := by
  unfold field_reads at hr
  rw [List.mem_map] at hr
  obtain ⟨i, hi, rfl⟩ := hr
  rw [List.mem_range] at hi
  exact ⟨rfl, by simp only; omega⟩

/-- Reads of a sub-record field carry no bound. -/
theorem allBounded_scope (B a n : Nat) : AllBounded B (field_reads ReadKind.scope_field a n) := by
  intro r hr
  obtain ⟨hk, _⟩ := mem_field_reads _ _ _ r hr
  simp [Read.bounded, hk]

/-- Reads of a hardware unit field that ends at or below `B + 15`. -/
theorem allBounded_unit (B a n : Nat) (h : a + n ≤ B + 15) :
    AllBounded B (field_reads ReadKind.unit_field a n) := by
  intro r hr
  obtain ⟨hk, ho⟩ := mem_field_reads _ _ _ r hr
  simp only [Read.bounded, hk]
  refine ⟨by simp, by simp, fun _ => by omega⟩

/-- Reads of a record header field that ends at or below `B + 3`. -/
theorem allBounded_record (B a n : Nat) (h : a + n ≤ B + 3) :
    AllBounded B (field_reads ReadKind.record_header a n) := by
  intro r hr
  obtain ⟨hk, ho⟩ := mem_field_reads _ _ _ r hr
  simp only [Read.bounded, hk]
  refine ⟨by simp, fun _ => by omega, by simp⟩

/-- Reads of a table header field that ends at or below 8. -/
theorem allBounded_table (B a n : Nat) (h : a + n ≤ 8) :
    AllBounded B (field_reads ReadKind.table_header a n) := by
  intro r hr
  obtain ⟨hk, ho⟩ := mem_field_reads _ _ _ r hr
  simp only [Read.bounded, hk]
  refine ⟨fun _ => by omega, by simp, by simp⟩

/-- The hop reads are sub-record reads. -/
theorem allBounded_hops (B : Nat) (m : Mem) (scope : Nat) : AllBounded B (hop_reads m scope) := by
  intro r hr
  unfold hop_reads at hr
  rcases List.mem_append.mp hr with h | h <;>
    · rw [List.mem_map] at h
      obtain ⟨i, _, rfl⟩ := h
      simp [Read.bounded]

/-- The reads of the counting loop are sub-record reads. -/
theorem count_loop_reads_bounded (B : Nat) (m : Mem) (stop : Nat) :
    ∀ (fuel scope : Nat), AllBounded B (count_loop_reads m stop fuel scope)
  | 0, _ => allBounded_nil B
  | fuel + 1, scope => by
    rw [count_loop_reads]
    split
    · exact allBounded_append _ _ _ (allBounded_append _ _ _ (allBounded_append _ _ _
        (allBounded_append _ _ _ (allBounded_scope _ _ _) (allBounded_scope _ _ _))
        (allBounded_scope _ _ _)) (allBounded_hops _ _ _))
        (count_loop_reads_bounded B m stop fuel _)
    · exact allBounded_nil B

/-- The reads of the fill loop are sub-record reads. -/
theorem fill_loop_reads_bounded (B : Nat) (m : Mem) (stop max_scopes : Nat) :
    ∀ (fuel scope idx : Nat), AllBounded B (fill_loop_reads m stop max_scopes fuel scope idx)
  | 0, _, _ => allBounded_nil B
  | fuel + 1, scope, idx => by
    rw [fill_loop_reads]
    split
    · refine allBounded_append _ _ _ (allBounded_scope _ _ _) ?_
      split
      · exact allBounded_append _ _ _ (allBounded_append _ _ _ (allBounded_append _ _ _
          (allBounded_scope _ _ _) (allBounded_scope _ _ _)) (allBounded_hops _ _ _))
          (fill_loop_reads_bounded B m stop max_scopes fuel _ _)
      · exact fill_loop_reads_bounded B m stop max_scopes fuel _ _
    · exact allBounded_nil B

/-- The reads of `append_scopes` on a unit that starts below `B`. -/
theorem append_scopes_reads_bounded (B : Nat) (m : Mem) (fuel unit : Nat)
    (desc : Option mx_iommu_desc_intel_t) (max_scopes : Nat) (hu : unit < B) :
    AllBounded B (append_scopes_reads m fuel unit desc max_scopes) := by
  unfold append_scopes_reads
  refine allBounded_append _ _ _ (allBounded_append _ _ _
    (allBounded_unit _ _ _ (by omega)) (count_loop_reads_bounded _ _ _ _ _)) ?_
  split
  · refine allBounded_append _ _ _ (allBounded_unit _ _ _ (by omega)) ?_
    split
    · exact allBounded_nil B
    · split
      · exact allBounded_nil B
      · exact fill_loop_reads_bounded _ _ _ _ _ _ _
  · exact allBounded_nil B

/-- The reads of `create_non_whole_segment_iommu_desc` on a unit that starts
below `B`. -/
theorem create_non_whole_segment_reads_bounded (B : Nat) (env : Env) (m : Mem)
    (fuel unit : Nat) (hu : unit < B) :
    AllBounded B (create_non_whole_segment_reads env m fuel unit) := by
  unfold create_non_whole_segment_reads
  refine allBounded_append _ _ _ (allBounded_unit _ _ _ (by omega)) ?_
  split
  · exact allBounded_nil B
  · refine allBounded_append _ _ _ (append_scopes_reads_bounded _ _ _ _ _ _ hu) ?_
    split
    · split
      · exact allBounded_nil B
      · split
        · exact allBounded_nil B
        · exact allBounded_append _ _ _ (allBounded_append _ _ _
            (allBounded_unit _ _ _ (by omega)) (allBounded_unit _ _ _ (by omega)))
            (append_scopes_reads_bounded _ _ _ _ _ _ hu)
    · exact allBounded_nil B

/-- The reads of the first loop of the whole-segment builder, for a unit below
`B` and records before it. -/
theorem whole_count_loop_reads_bounded (B : Nat) (m : Mem) (fuel unit e : Nat)
    (hu : unit < B) (he : e ≤ B) :
    ∀ (k addr : Nat), AllBounded B (whole_count_loop_reads m fuel unit e k addr)
  | 0, _ => allBounded_nil B
  | k + 1, addr => by
    rw [whole_count_loop_reads]
    split
    · rename_i ha
      refine allBounded_append _ _ _ (allBounded_record _ _ _ (by omega)) ?_
      split
      · refine allBounded_append _ _ _ (allBounded_append _ _ _
          (allBounded_unit _ _ _ (by omega)) (allBounded_unit _ _ _ (by omega))) ?_
        split
        · exact allBounded_append _ _ _ (allBounded_record _ _ _ (by omega))
            (whole_count_loop_reads_bounded B m fuel unit e hu he k _)
        · refine allBounded_append _ _ _
            (append_scopes_reads_bounded _ _ _ _ _ _ (by omega)) ?_
          split
          · split
            · exact allBounded_nil B
            · exact allBounded_append _ _ _ (allBounded_record _ _ _ (by omega))
                (whole_count_loop_reads_bounded B m fuel unit e hu he k _)
          · exact allBounded_nil B
      · exact allBounded_append _ _ _ (allBounded_record _ _ _ (by omega))
          (whole_count_loop_reads_bounded B m fuel unit e hu he k _)
    · exact allBounded_nil B

/-- The reads of the second loop of the whole-segment builder, for a unit below
`B` and records before it. -/
theorem whole_fill_loop_reads_bounded (B : Nat) (m : Mem) (fuel unit e num : Nat)
    (hu : unit < B) (he : e ≤ B) :
    ∀ (k addr : Nat) (desc : mx_iommu_desc_intel_t),
      AllBounded B (whole_fill_loop_reads m fuel unit e num k addr desc)
  | 0, _, _ => allBounded_nil B
  | k + 1, addr, desc => by
    rw [whole_fill_loop_reads]
    split
    · rename_i ha
      refine allBounded_append _ _ _ (allBounded_record _ _ _ (by omega)) ?_
      split
      · refine allBounded_append _ _ _ (allBounded_append _ _ _
          (allBounded_unit _ _ _ (by omega)) (allBounded_unit _ _ _ (by omega))) ?_
        split
        · exact allBounded_append _ _ _ (allBounded_record _ _ _ (by omega))
            (whole_fill_loop_reads_bounded B m fuel unit e num hu he k _ _)
        · refine allBounded_append _ _ _
            (append_scopes_reads_bounded _ _ _ _ _ _ hu) ?_
          split
          · split
            · exact allBounded_nil B
            · exact allBounded_append _ _ _ (allBounded_record _ _ _ (by omega))
                (whole_fill_loop_reads_bounded B m fuel unit e num hu he k _ _)
          · exact allBounded_nil B
      · exact allBounded_append _ _ _ (allBounded_record _ _ _ (by omega))
          (whole_fill_loop_reads_bounded B m fuel unit e num hu he k _ _)
    · exact allBounded_nil B

/-- The reads of `create_whole_segment_iommu_desc` on a unit that starts below
`B`. -/
theorem create_whole_segment_reads_bounded (B : Nat) (env : Env) (m : Mem)
    (fuel unit : Nat) (hu : unit < B) :
    AllBounded B (create_whole_segment_reads env m fuel unit) := by
  unfold create_whole_segment_reads
  refine allBounded_append _ _ _ (allBounded_unit _ _ _ (by omega)) ?_
  split
  · exact allBounded_nil B
  · refine allBounded_append _ _ _
      (whole_count_loop_reads_bounded B m fuel unit unit hu (by omega) _ _) ?_
    split
    · split
      · exact allBounded_nil B
      · exact allBounded_append _ _ _ (allBounded_append _ _ _
          (allBounded_unit _ _ _ (by omega)) (allBounded_unit _ _ _ (by omega)))
          (whole_fill_loop_reads_bounded B m fuel unit unit _ hu (by omega) _ _ _)
    · exact allBounded_nil B

/-- The reads of the record loop of `find_iommus` with a bound at or below `B`. -/
theorem find_loop_reads_bounded (B : Nat) (env : Env) (m : Mem) (fuel e : Nat) (he : e ≤ B) :
    ∀ (k addr : Nat) (tr : List Event), AllBounded B (find_loop_reads env m fuel e k addr tr)
  | 0, _, _ => allBounded_nil B
  | k + 1, addr, tr => by
    rw [find_loop_reads]
    split
    · rename_i ha
      refine allBounded_append _ _ _ (allBounded_record _ _ _ (by omega)) ?_
      split
      · refine allBounded_append _ _ _ (allBounded_append _ _ _ (allBounded_append _ _ _
          (allBounded_append _ _ _ (allBounded_unit _ _ _ (by omega))
            (allBounded_unit _ _ _ (by omega))) (allBounded_unit _ _ _ (by omega))) ?_) ?_
        · split
          · exact create_whole_segment_reads_bounded B env m fuel addr (by omega)
          · exact create_non_whole_segment_reads_bounded B env m fuel addr (by omega)
        · split
          · split
            · exact allBounded_nil B
            · exact allBounded_append _ _ _ (allBounded_record _ _ _ (by omega))
                (find_loop_reads_bounded B env m fuel e he k _ _)
          · exact allBounded_nil B
      · exact allBounded_append _ _ _ (allBounded_record _ _ _ (by omega))
          (find_loop_reads_bounded B env m fuel e he k _ _)
    · exact allBounded_nil B

/-- C11 (counterexample): `table_overrun` passes the table-level checks
(`Header.Length` is 72) and `find_iommus` returns `MX_OK` on it, yet the hop
loop reads the sub-record byte at offset 72, where a lookup into the 72 bytes of
the table finds nothing.  In `table_cut` (`Header.Length` 50, one record begun
at offset 48) the record loop reads the `Length` field of the record at offset
50, also outside the table. -/
theorem find_iommus_reads_past_table_end :
    sizeof_ACPI_TABLE_DMAR < Header_Length table_overrun ∧ Header_Length table_overrun ≤ 4096 ∧
    find_iommus env_ok (some table_overrun) 5 =
      .ret (MX_OK, [Event.builder_call false 48,
        Event.iommu_create (desc_of false
          [{ type := 0, start_bus := 1, num_hops := 2, dev_func := [16, 0] }]) 28]) ∧
    { kind := ReadKind.scope_field, offset := 72 } ∈ find_iommus_reads env_ok table_overrun 5 ∧
    table_lookup table_overrun 72 = none ∧
    sizeof_ACPI_TABLE_DMAR < Header_Length table_cut ∧ Header_Length table_cut ≤ 4096 ∧
    { kind := ReadKind.record_header, offset := 50 } ∈ find_iommus_reads env_ok table_cut 1 ∧
    table_lookup table_cut 50 = none := by
  decide

/-- C11 (amended): for a table that passes the lower table-level check, every
byte of the table header that `find_iommus` reads lies below `Header.Length`,
every byte of a record header it reads (`Type` and `Length`, in its own loop
and in the loops of the whole-segment builder) lies below `Header.Length + 3`,
and every byte of a fixed hardware-unit field below `Header.Length + 15`: a
record is only read when it starts below `Header.Length`.  Nothing bounds the
sub-record bytes. -/
theorem find_iommus_reads_bounded (env : Env) (m : Mem) (fuel : Nat)
    (hlo : sizeof_ACPI_TABLE_DMAR < Header_Length m) :
    ∀ r ∈ find_iommus_reads env m fuel,
      (r.kind = ReadKind.table_header → r.offset < Header_Length m) ∧
      (r.kind = ReadKind.record_header → r.offset < Header_Length m + 3) ∧
      (r.kind = ReadKind.unit_field → r.offset < Header_Length m + 15) := by
  have hall : AllBounded (Header_Length m) (find_iommus_reads env m fuel) := by
    unfold find_iommus_reads
    refine allBounded_append _ _ _ (allBounded_table _ _ _ (by omega)) ?_
    split
    · exact allBounded_nil _
    · split
      · exact allBounded_nil _
      · exact find_loop_reads_bounded _ env m fuel _ (Nat.le_refl _) _ _ _
  intro r hr
  obtain ⟨h1, h2, h3⟩ := hall r hr
  have h48 : sizeof_ACPI_TABLE_DMAR = 48 := rfl
  exact ⟨fun h => by have := h1 h; omega, h2, h3⟩

/-- Witness for the amended C11: the read of the first byte of the record of
`table_overrun`. -/
theorem find_iommus_reads_bounded_witness :
    sizeof_ACPI_TABLE_DMAR < Header_Length table_overrun ∧
    { kind := ReadKind.record_header, offset := 48 } ∈ find_iommus_reads env_ok table_overrun 5 ∧
    ((48 : Nat) < Header_Length table_overrun + 3) :=
  ⟨by decide, by decide,
    (find_iommus_reads_bounded env_ok table_overrun 5 (by decide)
      { kind := ReadKind.record_header, offset := 48 } (by decide)).2.1 rfl⟩

/-- For a declared length of at least 5 the stored `num_hops` is the number of
`dev_func` bytes the hop loop writes, and at most 124. -/
theorem num_hops_of_five_le (m : Mem) (scope ty : Nat) (old : mx_iommu_desc_intel_scope_t)
    (hL : 5 ≤ scope_Length m scope) :
    (write_scope m scope ty old).num_hops = (hop_bytes m scope).length ∧
    (write_scope m scope ty old).num_hops = (scope_Length m scope - 6) / 2 ∧
    (write_scope m scope ty old).num_hops ≤ 124 := by
  have hlt : scope_Length m scope < 256 := Nat.mod_lt _ (by decide)
  have hb : hop_bound m scope = (((scope_Length m scope - 6) / 2 : Nat) : Int) := by
    rcases Nat.lt_or_ge (scope_Length m scope) 6 with h5 | h6
    · have h : scope_Length m scope = 5 := by omega
      unfold hop_bound
      rw [h]
      decide
    · exact hop_bound_of_le m scope h6
  have hn : (hop_bound m scope).toNat = (scope_Length m scope - 6) / 2 := by
    rw [hb]
    exact Int.toNat_ofNat _
  have hlen : (hop_bytes m scope).length = (scope_Length m scope - 6) / 2 := by
    unfold hop_bytes
    rw [hn, List.length_map, List.length_range]
  have hnum : (write_scope m scope ty old).num_hops = (scope_Length m scope - 6) / 2 := by
    simp only [write_scope, hb]
    omega
  exact ⟨by rw [hnum, hlen], hnum, by rw [hnum]; omega⟩

/-- C21 (evaluation at a failing input): the ENDPOINT sub-record of
`table_short_scope` declares length 4, within 1..255.  The bound
`(s->Length - 6) / 2` is `-1` in `int`; the hop loop writes no `dev_func` byte,
while the value stored in the unsigned field `num_hops` is `-1` converted, that
is `4294967295` for the 32-bit field: it is neither the number of bytes
written, `max(0, -1) = 0`, nor at most 124. -/
theorem num_hops_wraps_on_short_scope :
    scope_EntryType table_short_scope 64 = ACPI_DMAR_SCOPE_TYPE_ENDPOINT ∧
    scope_Length table_short_scope 64 = 4 ∧
    hop_bound table_short_scope 64 = -1 ∧
    (hop_bytes table_short_scope 64).length = 0 ∧
    (write_scope table_short_scope 64 MX_IOMMU_INTEL_SCOPE_ENDPOINT uninit_scope).num_hops =
      4294967295 ∧
    create_non_whole_segment_iommu_desc env_ok table_short_scope 2 48 =
      .ret (.ok { register_base := 4275634176, pci_segment := 0, whole_segment := false,
                  num_scopes := 1,
                  scopes := [{ type := 0, start_bus := 0, num_hops := 4294967295,
                               dev_func := [] }] } 28) := by
  decide

/-- The fill loop leaves `pci_segment` as it was. -/
theorem fill_loop_pci_segment (m : Mem) (stop max_scopes : Nat) :
    ∀ (fuel scope idx : Nat) (d : mx_iommu_desc_intel_t) (r : Nat × mx_iommu_desc_intel_t),
    fill_loop m stop max_scopes fuel scope idx d = some r → r.2.pci_segment = d.pci_segment
  | 0, _, _, _, _, h => by simp [fill_loop] at h
  | fuel + 1, scope, idx, d, r, h => by
    rw [fill_loop] at h
    split at h
    · split at h
      · have h1 := fill_loop_pci_segment m stop max_scopes fuel _ _ _ r h
        exact h1
      · split at h
        · have h1 := fill_loop_pci_segment m stop max_scopes fuel _ _ _ r h
          exact h1
        · exact fill_loop_pci_segment m stop max_scopes fuel _ _ _ r h
    · simp only [Option.some.injEq] at h
      subst h
      rfl

/-- A call of `append_scopes` with a descriptor hands back a descriptor on the
same segment. -/
theorem append_scopes_pci_segment (m : Mem) (fuel unit : Nat) (d : mx_iommu_desc_intel_t)
    (max_scopes : Nat) (want : Bool) (r : append_result)
    (h : append_scopes m fuel unit (some d) max_scopes want = .ret r) :
    (r.desc.getD d).pci_segment = d.pci_segment := by
  unfold append_scopes at h
  simp only at h
  split at h
  · simp at h
  · split at h
    · simp at h
    · split at h
      · simp only [Run.ret.injEq] at h
        subst h
        rfl
      · split at h
        · simp at h
        · rename_i idx d1 hfill
          simp only [Run.ret.injEq] at h
          subst h
          exact fill_loop_pci_segment m _ _ _ _ _ _ _ hfill

/-- The `assert` of `append_scopes` holds when there is no descriptor, and when
the descriptor is on the segment of the unit. -/
theorem append_scopes_no_abort (m : Mem) (fuel unit : Nat) (desc : Option mx_iommu_desc_intel_t)
    (max_scopes : Nat) (want : Bool)
    (hseg : ∀ d, desc = some d → unit_Segment m unit = d.pci_segment) :
    append_scopes m fuel unit desc max_scopes want ≠ .abort := by
  unfold append_scopes
  simp only
  split
  · simp
  · cases desc with
    | none => simp
    | some d =>
      have hs := hseg d rfl
      simp only [hs, ne_eq, not_true_eq_false, if_false]
      split
      · simp
      · split <;> simp

/-- With the INCLUDE_ALL flag clear, no `assert` fails in
`create_non_whole_segment_iommu_desc`. -/
theorem create_non_whole_segment_no_abort (env : Env) (m : Mem) (fuel unit : Nat)
    (hflag : unit_Flags m unit &&& ACPI_DMAR_INCLUDE_ALL = 0) :
    create_non_whole_segment_iommu_desc env m fuel unit ≠ .abort := by
  unfold create_non_whole_segment_iommu_desc
  simp only [hflag, ne_eq, not_true_eq_false, if_false]
  split
  · simp
  · rename_i ha
    exact absurd ha (append_scopes_no_abort m fuel unit none 0 true (by simp))
  · split
    · simp
    · split
      · simp
      · split
        · simp
        · rename_i ha
          exact absurd ha (append_scopes_no_abort m fuel unit _ _ false
            (by intro d hd; simp only [Option.some.injEq] at hd; subst hd; rfl))
        · split <;> simp

/-- No `assert` fails in the first loop of the whole-segment builder. -/
theorem whole_count_loop_no_abort (m : Mem) (fuel unit e : Nat) :
    ∀ (k addr n : Nat), whole_count_loop m fuel unit e k addr n ≠ .abort
  | 0, _, _ => by simp [whole_count_loop]
  | k + 1, addr, n => by
    rw [whole_count_loop]
    split
    · split
      · split
        · exact whole_count_loop_no_abort m fuel unit e k _ _
        · split
          · simp
          · rename_i ha
            exact absurd ha (append_scopes_no_abort m fuel addr none 0 true (by simp))
          · split
            · simp
            · exact whole_count_loop_no_abort m fuel unit e k _ _
      · exact whole_count_loop_no_abort m fuel unit e k _ _
    · simp

/-- No `assert` fails in the second loop of the whole-segment builder when the
descriptor is on the segment of `unit`. -/
theorem whole_fill_loop_no_abort (m : Mem) (fuel unit e num : Nat) :
    ∀ (k addr : Nat) (desc : mx_iommu_desc_intel_t),
    unit_Segment m unit = desc.pci_segment →
    whole_fill_loop m fuel unit e num k addr desc ≠ .abort
  | 0, _, _, _ => by simp [whole_fill_loop]
  | k + 1, addr, desc, hseg => by
    rw [whole_fill_loop]
    split
    · split
      · split
        · exact whole_fill_loop_no_abort m fuel unit e num k _ _ hseg
        · split
          · simp
          · rename_i ha
            exact absurd ha (append_scopes_no_abort m fuel unit (some desc) num false
              (by intro d hd; simp only [Option.some.injEq] at hd; subst hd; exact hseg))
          · rename_i r hr
            split
            · simp
            · exact whole_fill_loop_no_abort m fuel unit e num k _ _
                (by rw [append_scopes_pci_segment m fuel unit desc num false r hr]; exact hseg)
      · exact whole_fill_loop_no_abort m fuel unit e num k _ _ hseg
    · simp

/-- With the INCLUDE_ALL flag set, no `assert` fails in
`create_whole_segment_iommu_desc`. -/
theorem create_whole_segment_no_abort (env : Env) (m : Mem) (fuel unit : Nat)
    (hflag : unit_Flags m unit &&& ACPI_DMAR_INCLUDE_ALL ≠ 0) :
    create_whole_segment_iommu_desc env m fuel unit ≠ .abort := by
  unfold create_whole_segment_iommu_desc
  have hflag1 : ¬ (unit_Flags m unit &&& ACPI_DMAR_INCLUDE_ALL = 0) := hflag
  simp only [hflag1, if_false]
  split
  · simp
  · rename_i ha
    exact absurd ha (whole_count_loop_no_abort m fuel unit unit _ _ _)
  · simp
  · split
    · simp
    · split
      · simp
      · rename_i ha
        exact absurd ha (whole_fill_loop_no_abort m fuel unit unit _ _ _ _ rfl)
      · simp
      · simp

/-- The builder call of `find_iommus` meets the `assert` of the builder it
picks. -/
theorem build_desc_no_abort (env : Env) (m : Mem) (fuel rec : Nat) :
    build_desc env m fuel rec ≠ .abort := by
  unfold build_desc include_all
  by_cases hf : unit_Flags m rec &&& ACPI_DMAR_INCLUDE_ALL = 0
  · simp only [hf, ne_eq, not_true_eq_false, decide_False, Bool.false_eq_true, if_false]
    exact create_non_whole_segment_no_abort env m fuel rec hf
  · simp only [ne_eq, hf, not_false_eq_true, decide_True, if_true]
    exact create_whole_segment_no_abort env m fuel rec hf

/-- No `assert` fails in the record loop of `find_iommus`. -/
theorem find_loop_no_abort (env : Env) (m : Mem) (fuel e : Nat) :
    ∀ (k addr : Nat) (tr : List Event), find_loop env m fuel e k addr tr ≠ .abort
  | 0, _, _ => by simp [find_loop]
  | k + 1, addr, tr => by
    rw [find_loop]
    split
    · split
      · simp only
        split
        · simp
        · rename_i ha
          exact absurd ha (build_desc_no_abort env m fuel addr)
        · simp
        · split
          · simp
          · exact find_loop_no_abort env m fuel e k _ _
      · exact find_loop_no_abort env m fuel e k _ _
    · simp

/-- C22: no execution of `find_iommus`, on any table, in any environment and
for any number of loop iterations, ends in a failed `assert`:
`create_whole_segment_iommu_desc` is entered exactly for the units whose
INCLUDE_ALL flag is set and `create_non_whole_segment_iommu_desc` for those
whose flag is clear, and with these entry conditions none of the three
asserts fails; in particular every `append_scopes` call with a descriptor is
on a unit whose `Segment` is the `pci_segment` of the descriptor. -/
theorem find_iommus_asserts_hold (env : Env) (table : Option Mem) (fuel : Nat) :
    find_iommus env table fuel ≠ .abort ∧
    (∀ m rec, build_desc env m fuel rec =
      (if unit_Flags m rec &&& ACPI_DMAR_INCLUDE_ALL ≠ 0
        then create_whole_segment_iommu_desc env m fuel rec
        else create_non_whole_segment_iommu_desc env m fuel rec)) ∧
    (∀ m unit, unit_Flags m unit &&& ACPI_DMAR_INCLUDE_ALL ≠ 0 →
      create_whole_segment_iommu_desc env m fuel unit ≠ .abort) ∧
    (∀ m unit, unit_Flags m unit &&& ACPI_DMAR_INCLUDE_ALL = 0 →
      create_non_whole_segment_iommu_desc env m fuel unit ≠ .abort) := by
  refine ⟨?_, ?_, fun m unit h => create_whole_segment_no_abort env m fuel unit h,
    fun m unit h => create_non_whole_segment_no_abort env m fuel unit h⟩
  · unfold find_iommus
    cases table with
    | none => simp
    | some m =>
      simp only
      split
      · simp
      · split
        · simp
        · split
          · simp
          · rename_i ha
            exact absurd ha (find_loop_no_abort env m fuel _ _ _ _)
          · simp
          · split <;> simp
  · intro m rec
    unfold build_desc include_all
    by_cases hf : unit_Flags m rec &&& ACPI_DMAR_INCLUDE_ALL = 0 <;> simp [hf]

end Acpisvc
